import Mathlib

/-!
# Verification of the `dawg` package (Directed Acyclic Word Graph)

Shallow embedding of `dawg.go`.

Words and buffers are modelled as `List Char` (one entry per Unicode code
point, matching Go's `rune`).  `bytes.Buffer` values are passed by value in
the Go source and their backing-array aliasing is unobservable (results are
copied out by `start.String()` at acceptance time), so the buffers embed as
pure `List Char` arguments.

Two embeddings are used:

* A *tree* model (`state`): before minimization the structure built by
  `addWord` is a tree (every state has exactly one incoming edge).  `equals`
  in the source compares states at one level by acceptance flag, letter
  count, and pointer identity of the (already canonicalized, deeper-level)
  child states; pointer identity of canonicalized children coincides with
  structural equality of the corresponding subtrees, so Lean value equality
  of `state` is exactly the source's merge criterion, and the states of the
  minimized graph are in bijection with the distinct subtree values.
  Searching the minimized graph follows the same edges as searching the
  trie (merging redirects an edge to a structurally equal state), so
  `Search` is embedded over this model.

* An *arena* model (namespace `Arena`): a pointer-faithful heap with
  explicit store threading, used for claims about mutation (running the
  minimizer a second time over the merged, shared graph; the frame property
  of search).  Loops that walk pointer chains take explicit fuel and return
  `Option`; `none` models a Go execution that panics or does not terminate.
-/

/-- The zero rune: Go's `var char rune` zero value and the literal `0`
passed as `ignoreChar` by `Search`. -/
def nul : Char := Char.ofNat 0

/-! ## Tree model: data -/

/-- A trie/DAWG state: the `final` flag and the outgoing letters.
The list is kept in the order of the source's `letter.next` linked list
(head = root of the letter tree, newly created letters inserted right after
the head).  The `left`/`right` tree fields of `letter` only accelerate
lookup and embed as list search; `char` and `state` are the list entries. -/
inductive state : Type where
  | mk (final : Bool) (letters : List (Char × state))

/-- Projection for the `final` field of `state`. -/
def state.final : state → Bool
  | .mk f _ => f

/-- Projection for the letter list of `state` (source: `letters` root plus
the `next` linked list). -/
def state.letters : state → List (Char × state)
  | .mk _ ls => ls

/-- Source `getletter`: find the outgoing letter for a character (the BST
walk returns the unique letter whose `char` matches, or nil). -/
def getletter (st : state) (c : Char) : Option state :=
  (st.letters.find? (fun p => p.1 == c)).map (·.2)

/-! ## Tree model: addWord -/

/-- Source `addWord` word-size computation: Go's `for i, l := range word`
iterates `i` over *byte* offsets of the UTF-8 encoding, and the body sets
`wordSize = i + 1`, so the reported size is the byte offset of the last
rune plus one (`0` for the empty word). -/
def wordSizeGoAux : Nat → List Char → Nat
  | _, [] => 0
  | i, c :: rest => if rest.isEmpty then i + 1 else wordSizeGoAux (i + c.utf8Size) rest

/-- The `wordSize` value returned by `addWord` for a word. -/
def wordSizeGo (w : List Char) : Nat := wordSizeGoAux 0 w

mutual
/-- Source `addWord` (trie part): insert a word below a state, returning the
updated state and `createdNodes`.  (`newEndState` is returned by the source
but discarded by both callers, and `wordSize` depends only on the word; both
are kept out of the recursion.) -/
def addWordAux : state → List Char → state × Nat
  | st, [] => (.mk true st.letters, 0)
  | st, c :: rest =>
    let r := insertChar st.letters c rest
    (.mk st.final r.1, r.2)
termination_by _ w => (w.length, 2, 0)

/-- One step of `addWord`: find or create the letter for `c` in a letter
list and recurse into its state with the remaining characters.  A letter
created in a nonempty list is linked right after the head
(`curLetter.next = curState.letters.next; curState.letters.next = curLetter`),
i.e. at position 1; in an empty list it becomes the head. -/
def insertChar : List (Char × state) → Char → List Char → List (Char × state) × Nat
  | [], c, rest =>
    let r := addWordAux (.mk false []) rest
    ([(c, r.1)], r.2 + 1)
  | (c0, t0) :: tl, c, rest =>
    if c0 = c then
      let r := addWordAux t0 rest
      ((c0, r.1) :: tl, r.2)
    else if (tl.find? (fun p => p.1 == c)).isSome then
      let r := updateIn tl c rest
      ((c0, t0) :: r.1, r.2)
    else
      let r := addWordAux (.mk false []) rest
      ((c0, t0) :: (c, r.1) :: tl, r.2 + 1)
termination_by _ _ rest => (rest.length + 1, 1, 0)

/-- Update the (existing) letter for `c` inside the tail of a letter list,
keeping its position. -/
def updateIn : List (Char × state) → Char → List Char → List (Char × state) × Nat
  | [], _, _ => ([], 0)
  | (c0, t0) :: tl, c, rest =>
    if c0 = c then
      let r := addWordAux t0 rest
      ((c0, r.1) :: tl, r.2)
    else
      let r := updateIn tl c rest
      ((c0, t0) :: r.1, r.2)
termination_by ls _ rest => (rest.length + 1, 0, ls.length)
end

/-- Source `addWord`, full return value modulo `newEndState`:
`(trie after insertion, wordSize, createdNodes)`. -/
def addWord (st : state) (w : List Char) : state × Nat × Nat :=
  let r := addWordAux st w
  (r.1, wordSizeGo w, r.2)

/-! ## Tree model: search -/

/-- Source `mergeWords`: prepend a found-word list to the accumulator.
If the first list is empty, the second is returned with its own size
(`lastWord` bookkeeping does not affect the resulting list of contents). -/
def mergeWords : List (List Char) × Int → List (List Char) × Int → List (List Char) × Int
  | (w1, s1), (w2, s2) => if w1 = [] then (w2, s2) else (w1 ++ w2, s1 + s2)

mutual
/-- Source `searchSubString`.  `start` is the accumulated prefix, `endBuf`
the unconsumed query suffix (`end` in the source).  The returned pair is
the found-word linked list (head = most recently merged) and `wordsSize`.
The three code blocks of the source body are the three section helpers:
the exact-match step (with its early `return`), the substitution/deletion
block guarded by `levenshteinDistance > 0`, and the trailing insertion
block, which in the source runs after `end.UnreadRune()` and therefore
sees the full suffix; `char` is the rune read at the top (or the zero rune
when the buffer was empty).  Early `return` statements are modelled by the
`Bool` stop flags. -/
def searchSubString (st : state) (start : List Char) (endBuf : List Char)
    (levenshteinDistance maxResults : Int) (allowAdd allowDelete : Bool)
    (ignoreChar : Char) : List (List Char) × Int :=
  match endBuf with
  | c :: rest =>
    let e1 := exactSection st start c rest levenshteinDistance maxResults
      allowAdd allowDelete ignoreChar
    if e1.2 then e1.1
    else
      let e2 := fuzzySection st start c rest levenshteinDistance maxResults
        allowAdd allowDelete ignoreChar e1.1
      if e2.2 then e2.1
      else insertSection st (c :: rest) start levenshteinDistance maxResults
        allowAdd allowDelete c ignoreChar e2.1
  | [] =>
    let acc : List (List Char) × Int := if st.final then ([start], 1) else ([], 0)
    insertSection st [] start levenshteinDistance maxResults allowAdd allowDelete
      nul ignoreChar acc
termination_by ((endBuf.length + levenshteinDistance.toNat, 5, 0) : Nat × Nat × Nat)
decreasing_by all_goals (simp_wf; first
  | (apply Prod.Lex.left; omega)
  | (apply Prod.Lex.right; first | (apply Prod.Lex.left; omega) | (apply Prod.Lex.right; omega) | omega)
  | (simp only [Prod.lex_iff]; omega))

/-- Source lines 280-296: if the query character is not the ignore
character and the state has a letter for it, follow it (budget unchanged,
ignore reset to the zero rune), merge the findings, and request an early
return when `maxResults` is exceeded. -/
def exactSection (st : state) (start : List Char) (c : Char) (rest : List Char)
    (levenshteinDistance maxResults : Int) (allowAdd allowDelete : Bool)
    (ignoreChar : Char) : (List (List Char) × Int) × Bool :=
  if c ≠ ignoreChar then
    match getletter st c with
    | some child =>
      let f := searchSubString child (start ++ [c]) rest levenshteinDistance
        maxResults allowAdd allowDelete nul
      let a := mergeWords f ([], 0)
      (a, decide (maxResults > 0 ∧ a.2 > maxResults))
    | none => (([], 0), false)
  else (([], 0), false)
termination_by ((rest.length + levenshteinDistance.toNat, 6, 0) : Nat × Nat × Nat)
decreasing_by all_goals (simp_wf; first
  | (apply Prod.Lex.left; omega)
  | (apply Prod.Lex.right; first | (apply Prod.Lex.left; omega) | (apply Prod.Lex.right; omega) | omega)
  | (simp only [Prod.lex_iff]; omega))

/-- Source lines 298-326, the `levenshteinDistance > 0` block: the
substitution loop over all letters, then (when `allowDelete`) the deletion
step, which stays at the same state, skips the query character, spends one
budget unit and passes it as the new ignore character. -/
def fuzzySection (st : state) (start : List Char) (c : Char) (rest : List Char)
    (levenshteinDistance maxResults : Int) (allowAdd allowDelete : Bool)
    (ignoreChar : Char) (acc : List (List Char) × Int) :
    (List (List Char) × Int) × Bool :=
  if _h : levenshteinDistance > 0 then
    let r := subLoop st.letters start rest (levenshteinDistance - 1) maxResults
      allowAdd allowDelete c ignoreChar acc
    if r.2 then r
    else if allowDelete then
      let f := searchSubString st start rest (levenshteinDistance - 1) maxResults
        allowAdd allowDelete c
      let a := mergeWords f r.1
      (a, decide (maxResults > 0 ∧ a.2 > maxResults))
    else r
  else (acc, false)
termination_by ((rest.length + levenshteinDistance.toNat, 4, 0) : Nat × Nat × Nat)
decreasing_by all_goals (simp_wf; first
  | (apply Prod.Lex.left; omega)
  | (apply Prod.Lex.right; first | (apply Prod.Lex.left; omega) | (apply Prod.Lex.right; omega) | omega)
  | (simp only [Prod.lex_iff]; omega))

/-- Source lines 337-355, the trailing `levenshteinDistance > 0 && allowAdd`
block: the insertion loop over all letters, run on the full remaining
suffix. -/
def insertSection (st : state) (endBuf start : List Char)
    (levenshteinDistance maxResults : Int) (allowAdd allowDelete : Bool)
    (char ignoreChar : Char) (acc : List (List Char) × Int) :
    List (List Char) × Int :=
  if _h : levenshteinDistance > 0 then
    if allowAdd then
      (addLoop st.letters start endBuf (levenshteinDistance - 1) maxResults
        allowAdd allowDelete char ignoreChar acc).1
    else acc
  else acc
termination_by ((endBuf.length + levenshteinDistance.toNat, 4, 0) : Nat × Nat × Nat)
decreasing_by all_goals (simp_wf; first
  | (apply Prod.Lex.left; omega)
  | (apply Prod.Lex.right; first | (apply Prod.Lex.left; omega) | (apply Prod.Lex.right; omega) | omega)
  | (simp only [Prod.lex_iff]; omega))

/-- The substitution loop of `searchSubString` (`// Change one letter`):
iterate the letter list, skipping the exact character and the ignore
character, recursing with one budget unit spent and the original query
character as the new ignore character.  The `Bool` result is the early
`return` flag set when `maxResults` is exceeded. -/
def subLoop (ls : List (Char × state)) (start rest : List Char)
    (dm1 maxResults : Int) (allowAdd allowDelete : Bool) (char ignoreChar : Char)
    (acc : List (List Char) × Int) : (List (List Char) × Int) × Bool :=
  match ls with
  | [] => (acc, false)
  | (lc, lst) :: tl =>
    if lc ≠ char ∧ lc ≠ ignoreChar then
      let f := searchSubString lst (start ++ [lc]) rest dm1 maxResults
        allowAdd allowDelete char
      let a := mergeWords f acc
      if maxResults > 0 ∧ a.2 > maxResults then (a, true)
      else subLoop tl start rest dm1 maxResults allowAdd allowDelete char ignoreChar a
    else subLoop tl start rest dm1 maxResults allowAdd allowDelete char ignoreChar acc
termination_by ((rest.length + dm1.toNat + 1, 2, ls.length) : Nat × Nat × Nat)
decreasing_by all_goals (simp_wf; first
  | (apply Prod.Lex.left; omega)
  | (apply Prod.Lex.right; first | (apply Prod.Lex.left; omega) | (apply Prod.Lex.right; omega) | omega)
  | (simp only [Prod.lex_iff]; omega))

/-- The insertion loop of `searchSubString` (`// Add one letter`): iterate
the letter list without consuming a query character, recursing with one
budget unit spent and ignore character reset to the zero rune. -/
def addLoop (ls : List (Char × state)) (start endBuf : List Char)
    (dm1 maxResults : Int) (allowAdd allowDelete : Bool) (char ignoreChar : Char)
    (acc : List (List Char) × Int) : (List (List Char) × Int) × Bool :=
  match ls with
  | [] => (acc, false)
  | (lc, lst) :: tl =>
    if lc ≠ char ∧ lc ≠ ignoreChar then
      let f := searchSubString lst (start ++ [lc]) endBuf dm1 maxResults
        allowAdd allowDelete nul
      let a := mergeWords f acc
      if maxResults > 0 ∧ a.2 > maxResults then (a, true)
      else addLoop tl start endBuf dm1 maxResults allowAdd allowDelete char ignoreChar a
    else addLoop tl start endBuf dm1 maxResults allowAdd allowDelete char ignoreChar acc
termination_by ((endBuf.length + dm1.toNat + 1, 2, ls.length) : Nat × Nat × Nat)
decreasing_by all_goals (simp_wf; first
  | (apply Prod.Lex.left; omega)
  | (apply Prod.Lex.right; first | (apply Prod.Lex.left; omega) | (apply Prod.Lex.right; omega) | omega)
  | (simp only [Prod.lex_iff]; omega))
end

/-- The truncation loop of `Search`
(`for ; wordsSize > maxResults; wordsSize-- { wordsFound = wordsFound.nextWord }`):
each iteration dereferences the head's `nextWord`; on a nil list head this is
a nil-pointer dereference, modelled as `none`. -/
def truncLoop (l : List (List Char)) (sz mr : Int) : Option (List (List Char) × Int) :=
  if sz > mr then
    match l with
    | [] => none
    | _ :: t => truncLoop t (sz - 1) mr
  else some (l, sz)

/-- The output loop of `Search`
(`words[wordsSize-1] = wordsFound.content; wordsFound = wordsFound.nextWord`):
fills the array back to front, so the result is the reverse of the first
`wordsSize` list entries; walking past the end of the list is a nil-pointer
dereference, modelled as `none`. -/
def convertLoop (l : List (List Char)) (sz : Int) : Option (List (List Char)) :=
  if sz > 0 then
    match l with
    | [] => none
    | w :: t =>
      match convertLoop t (sz - 1) with
      | some r => some (r ++ [w])
      | none => none
  else some []

/-- Source `Search`: run `searchSubString` from the initial state with
ignore character 0, truncate while `wordsSize > maxResults`, then convert
the linked list to an array.  `none` models a run that panics (the
buffer-error path of the source is unreachable for the `List Char` query
model, see module comment). -/
def Search (dawg : state) (word : List Char) (levenshteinDistance maxResults : Int)
    (allowAdd allowDelete : Bool) : Option (List (List Char)) :=
  let r := searchSubString dawg [] word levenshteinDistance maxResults allowAdd allowDelete nul
  match truncLoop r.1 r.2 maxResults with
  | none => none
  | some (l, sz) => convertLoop l sz

/-- Membership of a word in the graph: follow `getletter` edges and check
the `final` flag at the end (the spec's "accepted word"). -/
def accepts (st : state) : List Char → Bool
  | [] => st.final
  | c :: rest =>
    match getletter st c with
    | some child => accepts child rest
    | none => false

/-! ## Tree model: minimization (`compressTrie` / `analyseSubTrie`)

`analyseSubTrie` computes for every non-root state its level
`1 + max (child levels)` (`0` for a leaf) and collects the states of each
level; `compressTrie` then, per level bottom-up, scans each level list and
merges every later state that `equals` an earlier one, redirecting its sole
incoming edge.  Because levels are processed from the leaves up, the child
pointers compared by `equals` are already canonical representatives, and
pointer identity of canonical children coincides with structural equality
of subtrees; `equals` below is therefore the recursive structural test.
The goroutine/channel machinery of the source only orders concurrent
appends to the level lists; the merged-away count is independent of that
order, and the model collects levels in a fixed traversal order. -/

mutual
/-- Source `state.equals`: same `final` flag, same letter count, and every
letter of the first state contained in the second (same character, same
— canonical, hence structurally equal — target state). -/
def equals : state → state → Bool
  | .mk f1 l1, .mk f2 l2 => f1 == f2 && l1.length == l2.length && subsetLetters l1 l2
termination_by s _ => ((sizeOf s, 0) : Nat × Nat)
decreasing_by all_goals (simp_wf; first | (apply Prod.Lex.right; omega) | (apply Prod.Lex.left; omega))

/-- The `for curLetter := state.letters; ...` loop of `equals`: every
letter of the first list is contained in the second list. -/
def subsetLetters : List (Char × state) → List (Char × state) → Bool
  | [], _ => true
  | (c, t) :: r, l2 => containsLetter l2 c t && subsetLetters r l2
termination_by l _ => ((sizeOf l, 0) : Nat × Nat)
decreasing_by all_goals (simp_wf; first | (apply Prod.Lex.right; omega) | (apply Prod.Lex.left; omega))

/-- Source `state.containsLetter`: look up the character (the BST search
finds the unique matching letter) and compare target states (pointer
comparison in the source, structural equality of canonicalized subtrees
here). -/
def containsLetter : List (Char × state) → Char → state → Bool
  | [], _, _ => false
  | (c2, t2) :: r, c, t => if c2 == c then equals t t2 else containsLetter r c t
termination_by l _ t => ((sizeOf t + 1, sizeOf l) : Nat × Nat)
decreasing_by all_goals (simp_wf; first | (apply Prod.Lex.right; omega) | (apply Prod.Lex.left; omega))
end

mutual
/-- Source `analyseSubTrie` level computation: `0` for a state without
letters, otherwise `1 + ` the maximum over children (`curSubLevels`
accumulation). -/
def levelOf : state → Nat
  | .mk _ ls => levelOfL ls

/-- Maximum of `levelOf child + 1` over a letter list (`analyseSubTrie`
returns `curLevel + 1`). -/
def levelOfL : List (Char × state) → Nat
  | [] => 0
  | (_, t) :: r => max (levelOf t + 1) (levelOfL r)
end

mutual
/-- All non-root states reachable from a state (the states visited by
`analyseSubTrie` when started, as in `compressTrie`, on every direct child
of the root). -/
def subStates : state → List state
  | .mk _ ls => subStatesL ls

/-- All states hanging off a letter list: each child and, recursively, its
own sub-states. -/
def subStatesL : List (Char × state) → List state
  | [] => []
  | (_, t) :: r => t :: (subStates t ++ subStatesL r)
end

/-- The level list for one level: the reachable non-root states whose
`analyseSubTrie` level is `i` (the source builds this list by concurrent
pushes; only its membership matters for the merge count). -/
def levelList (root : state) (i : Nat) : List state :=
  (subStates root).filter (fun s => levelOf s == i)

/-- The merge scan of `compressTrie` for one level list: the head state
absorbs every later state that `equals` it (each removed from the list and
counted as deleted), then the scan continues from the next surviving
state. -/
def scanLevel : List state → Nat
  | [] => 0
  | s :: rest =>
    (rest.filter (fun t => equals s t)).length +
      scanLevel (rest.filter (fun t => !(equals s t)))
termination_by l => l.length
decreasing_by simp_wf; have := List.length_filter_le (fun t => !(equals s t)) rest; omega

/-- Source `compressTrie`: total `deletedNodes` over the levels
`0 ≤ i < maxWordSize`. -/
def compressTrie (initialState : state) (maxWordSize : Nat) : Nat :=
  (List.range maxWordSize).foldl (fun acc i => acc + scanLevel (levelList initialState i)) 0

/-- Source `CreateDAWG`: build the trie word by word (starting from one
root node), tracking the maximal `wordSize` and the total created-node
count, then subtract the nodes merged away by `compressTrie`.  The state
component is the (un-merged) trie; the `Nat` component is `nodesCount`. -/
def CreateDAWG (words : List (List Char)) : state × Nat :=
  let r := words.foldl
    (fun acc w =>
      let a := addWord acc.1 w
      (a.1, max acc.2.1 a.2.1, acc.2.2 + a.2.2))
    ((.mk false [] : state), 0, 1)
  (r.1, r.2.2 - compressTrie r.1 r.2.1)

/-! ## Arena model

A pointer-faithful embedding: `letter` and `state` records live in two
growable lists indexed by `Nat` ids ("pointers", `Option Nat` where the
source pointer may be nil), and every operation threads the `Store`.
Loops that follow pointer chains take explicit fuel and return `Option`
(`none` = the Go execution panics or does not terminate); recursion that
structurally follows the input word needs no fuel.  The initial state is
id `0`. -/

namespace Arena

/-- Source `letter` struct: character, target state pointer, the letter
search-tree pointers and the iteration linked-list pointer. -/
structure letter where
  char : Char := nul
  state : Option Nat := none
  left : Option Nat := none
  right : Option Nat := none
  next : Option Nat := none
  deriving DecidableEq, Repr

/-- Source `state` struct (the `number` field, only used by the
file-saving code absent from this package, is omitted). -/
structure state where
  final : Bool := false
  letters : Option Nat := none
  lettersCount : Nat := 0
  next : Option Nat := none
  letter : Option Nat := none
  deriving DecidableEq, Repr

/-- The heap: all `state` and `letter` records, addressed by index. -/
structure Store where
  states : List state
  letters : List letter
  deriving DecidableEq, Repr

/-- Read a state record (dereference a state pointer). -/
def getS (st : Store) (i : Nat) : state := st.states.getD i {}

/-- Read a letter record (dereference a letter pointer). -/
def getL (st : Store) (i : Nat) : letter := st.letters.getD i {}

/-- Write a state record. -/
def setS (st : Store) (i : Nat) (v : state) : Store :=
  { st with states := st.states.set i v }

/-- Write a letter record. -/
def setL (st : Store) (i : Nat) (v : letter) : Store :=
  { st with letters := st.letters.set i v }

/-- The letter-tree walk inside `addWord`: descend the search tree for
character `c`, creating the missing node on a nil branch
(`curLetter.char < l` descends / creates left, otherwise right), until the
letter with `char = c` is reached. -/
def bstFindOrCreate (st : Store) (lid : Nat) (c : Char) (fuel : Nat) :
    Option (Store × Nat) :=
  match fuel with
  | 0 => none
  | fuel + 1 =>
    let l := getL st lid
    if l.char == c then some (st, lid)
    else if l.char < c then
      match l.left with
      | none =>
        let n := st.letters.length
        let st1 := { st with letters := st.letters ++ [{ char := c }] }
        let st2 := setL st1 lid { l with left := some n }
        bstFindOrCreate st2 n c fuel
      | some j => bstFindOrCreate st j c fuel
    else
      match l.right with
      | none =>
        let n := st.letters.length
        let st1 := { st with letters := st.letters ++ [{ char := c }] }
        let st2 := setL st1 lid { l with right := some n }
        bstFindOrCreate st2 n c fuel
      | some j => bstFindOrCreate st j c fuel

/-- Source `addWord` over the arena: walk the word, finding or creating
the letter and its target state for each character, maintaining
`lettersCount`, linking a newly created non-head letter right after the
head of the iteration list, and finally marking the end state final.
Returns the store and `createdNodes`. -/
def addWord (st : Store) (sid : Nat) (w : List Char) (fuel : Nat) (created : Nat) :
    Option (Store × Nat) :=
  match w with
  | [] => some (setS st sid { getS st sid with final := true }, created)
  | c :: rest =>
    let s := getS st sid
    let r : Option (Store × Nat) :=
      match s.letters with
      | none =>
        let n := st.letters.length
        let st1 := { st with letters := st.letters ++ [{ char := c }] }
        some (setS st1 sid { getS st1 sid with letters := some n }, n)
      | some head => bstFindOrCreate st head c fuel
    match r with
    | none => none
    | some (st1, lid) =>
      match (getL st1 lid).state with
      | some cs => addWord st1 cs rest fuel created
      | none =>
        let m := st1.states.length
        let st2 := { st1 with states := st1.states ++ [{ letter := some lid }] }
        let st3 := setL st2 lid { getL st2 lid with state := some m }
        let s3 := getS st3 sid
        let st4 := setS st3 sid { s3 with lettersCount := s3.lettersCount + 1 }
        let st5 :=
          match (getS st4 sid).letters with
          | some head =>
            if lid ≠ head then
              let st5a := setL st4 lid { getL st4 lid with next := (getL st4 head).next }
              setL st5a head { getL st5a head with next := some lid }
            else st4
          | none => st4
        addWord st5 m rest fuel (created + 1)

/-- A store holding only the non-final initial state (id 0):
`&state{final: false}` at the start of `CreateDAWG`. -/
def initialStore : Store := { states := [{}], letters := [] }

/-- The construction loop of `CreateDAWG` before minimization: insert the
words one by one from `initialStore`, accumulating the node count
(starting at 1 for the root) and the maximal `wordSize`. -/
def buildTrie : Store → Nat → Nat → List (List Char) → Nat → Option (Store × Nat × Nat)
  | st, nbNodes, maxW, [], _ => some (st, nbNodes, maxW)
  | st, nbNodes, maxW, w :: ws, fuel =>
    match addWord st 0 w fuel 0 with
    | none => none
    | some (st1, created) =>
      buildTrie st1 (nbNodes + created) (max maxW (wordSizeGo w)) ws fuel

end Arena

namespace Arena

/-! ### `compressTrie` over the arena

Phase 1 (`analyseSubTrie`) recursively computes each state's level and
pushes the state onto the per-level linked list (`curState.next` points to
the previous head).  The source runs one goroutine per direct child of the
root with per-level channels serializing the pushes; the model performs
the same pushes sequentially in iteration order of the root's letter
list — one legal schedule.  Phase 2 scans each level list and merges
`equals` states, mutating `next` links and redirecting the absorbed
state's incoming `letter.state` pointer. -/

mutual
/-- Source `analyseSubTrie` for one state: analyse the children to obtain
`curLevel`, then push this state onto `levels[curLevel]` and return
`curLevel + 1`.  A level outside the `levels` slice is an index-out-of-range
panic (`none`). -/
def analyseSubTrie (st : Store) (sid : Nat) (levels : List (Option Nat))
    (fuel : Nat) : Option (Store × List (Option Nat) × Nat) :=
  match fuel with
  | 0 => none
  | fuel + 1 =>
    let s := getS st sid
    let r : Option (Store × List (Option Nat) × Nat) :=
      if s.lettersCount ≠ 0 then analyseChain st s.letters levels 0 fuel
      else some (st, levels, 0)
    match r with
    | none => none
    | some (st1, lv1, curLevel) =>
      if curLevel < lv1.length then
        let s1 := getS st1 sid
        let st2 := setS st1 sid { s1 with next := lv1.getD curLevel none }
        some (st2, lv1.set curLevel (some sid), curLevel + 1)
      else none

/-- The child loop of `analyseSubTrie`: walk the letter linked list,
analysing each child state and accumulating the maximal returned level. -/
def analyseChain (st : Store) (lopt : Option Nat) (levels : List (Option Nat))
    (curLevel : Nat) (fuel : Nat) : Option (Store × List (Option Nat) × Nat) :=
  match fuel with
  | 0 => none
  | fuel + 1 =>
    match lopt with
    | none => some (st, levels, curLevel)
    | some lid =>
      match (getL st lid).state with
      | none => none
      | some cs =>
        match analyseSubTrie st cs levels fuel with
        | none => none
        | some (st1, lv1, sub) =>
          analyseChain st1 (getL st1 lid).next lv1 (max curLevel sub) fuel
end

/-- The letter-tree search of `containsLetter` (no mutation): find the
letter with the given character, nil if absent. -/
def bstFind (st : Store) (lopt : Option Nat) (c : Char) (fuel : Nat) :
    Option (Option Nat) :=
  match fuel with
  | 0 => none
  | fuel + 1 =>
    match lopt with
    | none => some none
    | some lid =>
      let l := getL st lid
      if l.char == c then some (some lid)
      else if l.char < c then bstFind st l.left c fuel
      else bstFind st l.right c fuel

/-- The letter loop of `state.equals`: every letter of the first state is
contained in the second state — same character (via the letter-tree
search) and identical target state pointer. -/
def equalsChain (st : Store) (lopt : Option Nat) (sid2 : Nat) (fuel : Nat) :
    Option Bool :=
  match fuel with
  | 0 => none
  | fuel + 1 =>
    match lopt with
    | none => some true
    | some lid =>
      let l := getL st lid
      match bstFind st (getS st sid2).letters l.char fuel with
      | none => none
      | some none => some false
      | some (some lid2) =>
        if (getL st lid2).state = l.state then equalsChain st l.next sid2 fuel
        else some false

/-- Source `state.equals` over the arena: same `final` flag and
`lettersCount`, and every letter of the first contained in the second. -/
def equals (st : Store) (sid1 sid2 : Nat) (fuel : Nat) : Option Bool :=
  let s1 := getS st sid1
  let s2 := getS st sid2
  if s1.final ≠ s2.final ∨ s1.lettersCount ≠ s2.lettersCount then some false
  else equalsChain st s1.letters sid2 fuel

/-- The inner merge loop of `compressTrie`: walk `sameState` down the
level list; when `curState.equals(sameState)`, unlink it
(`previousState.next = sameState.next`), redirect its incoming edge
(`sameState.letter.state = curState`) and count it; otherwise advance
`previousState`. -/
def mergeScan (st : Store) (curId prevId : Nat) (sameOpt : Option Nat)
    (cnt : Nat) (eqFuel fuel : Nat) : Option (Store × Nat) :=
  match fuel with
  | 0 => none
  | fuel + 1 =>
    match sameOpt with
    | none => some (st, cnt)
    | some sid =>
      match equals st curId sid eqFuel with
      | none => none
      | some true =>
        let st1 := setS st prevId { getS st prevId with next := (getS st sid).next }
        match (getS st1 sid).letter with
        | none => none
        | some lid =>
          let st2 := setL st1 lid { getL st1 lid with state := some curId }
          mergeScan st2 curId prevId ((getS st2 sid).next) (cnt + 1) eqFuel fuel
      | some false => mergeScan st curId sid ((getS st sid).next) cnt eqFuel fuel

/-- The outer merge loop of `compressTrie` for one level: run the inner
scan from each surviving `curState` while it has a successor. -/
def mergeLevel (st : Store) (curOpt : Option Nat) (cnt : Nat) (eqFuel fuel : Nat) :
    Option (Store × Nat) :=
  match fuel with
  | 0 => none
  | fuel + 1 =>
    match curOpt with
    | none => some (st, cnt)
    | some cid =>
      match (getS st cid).next with
      | none => some (st, cnt)
      | some nid =>
        match mergeScan st cid cid (some nid) cnt eqFuel fuel with
        | none => none
        | some (st1, cnt1) => mergeLevel st1 ((getS st1 cid).next) cnt1 eqFuel fuel

/-- Phase 2 over all levels, in level order. -/
def mergeLevels (st : Store) (levels : List (Option Nat)) (cnt : Nat)
    (eqFuel fuel : Nat) : Option (Store × Nat) :=
  match levels with
  | [] => some (st, cnt)
  | lv :: rest =>
    match mergeLevel st lv cnt eqFuel fuel with
    | none => none
    | some (st1, cnt1) => mergeLevels st1 rest cnt1 eqFuel fuel

/-- Phase 1 over the root's direct children (the source starts one
goroutine per child; the model analyses them in letter-list order). -/
def rootChain (st : Store) (lopt : Option Nat) (levels : List (Option Nat))
    (fuel : Nat) : Option (Store × List (Option Nat)) :=
  match fuel with
  | 0 => none
  | fuel + 1 =>
    match lopt with
    | none => some (st, levels)
    | some lid =>
      match (getL st lid).state with
      | none => none
      | some cs =>
        match analyseSubTrie st cs levels fuel with
        | none => none
        | some (st1, lv1, _) => rootChain st1 ((getL st1 lid).next) lv1 fuel

/-- Source `compressTrie` over the arena: build the (empty) level slice of
length `maxWordSize`, run phase 1 from the root's children (skipped when
the root has no letters), then phase 2, returning `deletedNodes`.  The
fuel for the `equals` walks is `letters.length + 1`, enough for every
well-formed letter tree. -/
def compressTrie (st : Store) (maxWordSize : Nat) (analyseFuel mergeFuel : Nat) :
    Option (Store × Nat) :=
  let levels0 : List (Option Nat) := List.replicate maxWordSize none
  let p1 : Option (Store × List (Option Nat)) :=
    if (getS st 0).lettersCount ≠ 0 then rootChain st ((getS st 0).letters) levels0 analyseFuel
    else some (st, levels0)
  match p1 with
  | none => none
  | some (st1, levels) => mergeLevels st1 levels 0 (st1.letters.length + 1) mergeFuel

/-- `CreateDAWG` over the arena: build the trie, then minimize.  Returns
the store, the final `nodesCount`, and the maximal `wordSize` (needed to
re-run the minimizer). -/
def CreateDAWG (words : List (List Char)) (fuel : Nat) : Option (Store × Nat × Nat) :=
  match buildTrie initialStore 1 0 words fuel with
  | none => none
  | some (st, nbNodes, maxW) =>
    match compressTrie st maxW fuel fuel with
    | none => none
    | some (st1, deleted) => some (st1, nbNodes - deleted, maxW)

end Arena

/-! ## The second minimization run (claim C6)

`CreateDAWG ["ab", "bb"]` merges the two final leaves and then the two
`b`-predecessor states, leaving a graph in which both root letters point
to the shared state 3 (`storeAB`).  Running `compressTrie` again on this
graph makes `analyseSubTrie` visit the shared states once per incoming
path: the second push of state 4 onto level 0 executes
`curState.next = levels[0]` while `levels[0]` is already state 4 itself,
making `next` self-referential (`storeABP1`).  The phase-2 scan then
compares state 4 with itself forever (`equals` is reflexive), incrementing
`deletedNodes` on every iteration and never returning. -/

/-- The trie of `["ab", "bb"]` before minimization (checked against
`Arena.buildTrie` in `storeTrieAB_built`). -/
def storeTrieAB : Arena.Store :=
  { states :=
      [ { final := false, letters := some 0, lettersCount := 2, next := none, letter := none },
        { final := false, letters := some 1, lettersCount := 1, next := none, letter := some 0 },
        { final := true, letters := none, lettersCount := 0, next := none, letter := some 1 },
        { final := false, letters := some 3, lettersCount := 1, next := none, letter := some 2 },
        { final := true, letters := none, lettersCount := 0, next := none, letter := some 3 } ],
    letters :=
      [ { char := 'a', state := some 1, left := some 2, right := none, next := some 2 },
        { char := 'b', state := some 2, left := none, right := none, next := none },
        { char := 'b', state := some 3, left := none, right := none, next := none },
        { char := 'b', state := some 4, left := none, right := none, next := none } ] }

/-- The minimized graph of `["ab", "bb"]`: states 2 and 1 were absorbed
into 4 and 3 (2 merges), so both root letters now point to state 3. -/
def storeAB : Arena.Store :=
  { states :=
      [ { final := false, letters := some 0, lettersCount := 2, next := none, letter := none },
        { final := false, letters := some 1, lettersCount := 1, next := none, letter := some 0 },
        { final := true, letters := none, lettersCount := 0, next := none, letter := some 1 },
        { final := false, letters := some 3, lettersCount := 1, next := none, letter := some 2 },
        { final := true, letters := none, lettersCount := 0, next := none, letter := some 3 } ],
    letters :=
      [ { char := 'a', state := some 3, left := some 2, right := none, next := some 2 },
        { char := 'b', state := some 4, left := none, right := none, next := none },
        { char := 'b', state := some 3, left := none, right := none, next := none },
        { char := 'b', state := some 4, left := none, right := none, next := none } ] }

/-- `storeAB` after phase 1 of a second `compressTrie` run: states 3 and 4
were each pushed twice, so their `next` pointers are self-loops. -/
def storeABP1 : Arena.Store :=
  { states :=
      [ { final := false, letters := some 0, lettersCount := 2, next := none, letter := none },
        { final := false, letters := some 1, lettersCount := 1, next := none, letter := some 0 },
        { final := true, letters := none, lettersCount := 0, next := none, letter := some 1 },
        { final := false, letters := some 3, lettersCount := 1, next := some 3, letter := some 2 },
        { final := true, letters := none, lettersCount := 0, next := some 4, letter := some 3 } ],
    letters :=
      [ { char := 'a', state := some 3, left := some 2, right := none, next := some 2 },
        { char := 'b', state := some 4, left := none, right := none, next := none },
        { char := 'b', state := some 3, left := none, right := none, next := none },
        { char := 'b', state := some 4, left := none, right := none, next := none } ] }

set_option maxHeartbeats 2000000 in
/-- A second `compressTrie` run on `storeAB` (same `maxWordSize` 2) returns
for no amount of phase-2 fuel: the model spends one fuel unit per executed
loop iteration, so this says the source's merge loop runs forever. -/
def secondMinimizationRunDiverges : Prop :=
  ∀ mergeFuel : Nat, Arena.compressTrie storeAB 2 10 mergeFuel = none

namespace Arena

/-! ### Search over the arena

The same section structure as the tree-model search, with every heap
access reading from an explicitly threaded `Store` and every helper
returning the store it finished with: this is the embedding in which "the
search mutates nothing" is a theorem rather than a convention.  The letter
iteration loops take fuel (`letters.length + 1`, enough for every chain
without repeated letters); the letter-tree search conflates fuel
exhaustion with a missing letter, which does not matter for the frame
property. -/

/-- Source `getletter` over the arena: the letter-tree walk, read-only. -/
def getletter (st : Store) (sid : Nat) (c : Char) : Option Nat :=
  match bstFind st ((getS st sid).letters) c (st.letters.length + 1) with
  | some r => r
  | none => none

mutual
/-- Source `searchSubString` over the arena (see the tree model for the
correspondence of the three sections to the source blocks). -/
def searchSubString (st : Store) (sid : Nat) (start endBuf : List Char)
    (levenshteinDistance maxResults : Int) (allowAdd allowDelete : Bool)
    (ignoreChar : Char) : Store × (List (List Char) × Int) :=
  match endBuf with
  | c :: rest =>
    let e1 := exactSection st sid start c rest levenshteinDistance maxResults
      allowAdd allowDelete ignoreChar
    if e1.2.2 then (e1.1, e1.2.1)
    else
      let e2 := fuzzySection e1.1 sid start c rest levenshteinDistance maxResults
        allowAdd allowDelete ignoreChar e1.2.1
      if e2.2.2 then (e2.1, e2.2.1)
      else insertSection e2.1 sid (c :: rest) start levenshteinDistance maxResults
        allowAdd allowDelete c ignoreChar e2.2.1
  | [] =>
    let acc : List (List Char) × Int := if (getS st sid).final then ([start], 1) else ([], 0)
    insertSection st sid [] start levenshteinDistance maxResults allowAdd allowDelete
      nul ignoreChar acc
termination_by ((endBuf.length + levenshteinDistance.toNat, 5, 0) : Nat × Nat × Nat)
decreasing_by all_goals (simp_wf; first
  | (apply Prod.Lex.left; omega)
  | (apply Prod.Lex.right; first | (apply Prod.Lex.left; omega) | (apply Prod.Lex.right; omega) | omega)
  | (simp only [Prod.lex_iff]; omega))

/-- The exact-match step over the arena (a letter whose `state` pointer is
nil cannot arise from construction; it is treated as a missing letter). -/
def exactSection (st : Store) (sid : Nat) (start : List Char) (c : Char) (rest : List Char)
    (levenshteinDistance maxResults : Int) (allowAdd allowDelete : Bool)
    (ignoreChar : Char) : Store × ((List (List Char) × Int) × Bool) :=
  if c ≠ ignoreChar then
    match getletter st sid c with
    | some lid =>
      match (getL st lid).state with
      | some cs =>
        let f := searchSubString st cs (start ++ [c]) rest levenshteinDistance
          maxResults allowAdd allowDelete nul
        let a := mergeWords f.2 ([], 0)
        (f.1, a, decide (maxResults > 0 ∧ a.2 > maxResults))
      | none => (st, ([], 0), false)
    | none => (st, ([], 0), false)
  else (st, ([], 0), false)
termination_by ((rest.length + levenshteinDistance.toNat, 6, 0) : Nat × Nat × Nat)
decreasing_by all_goals (simp_wf; first
  | (apply Prod.Lex.left; omega)
  | (apply Prod.Lex.right; first | (apply Prod.Lex.left; omega) | (apply Prod.Lex.right; omega) | omega)
  | (simp only [Prod.lex_iff]; omega))

/-- The substitution/deletion block over the arena. -/
def fuzzySection (st : Store) (sid : Nat) (start : List Char) (c : Char) (rest : List Char)
    (levenshteinDistance maxResults : Int) (allowAdd allowDelete : Bool)
    (ignoreChar : Char) (acc : List (List Char) × Int) :
    Store × ((List (List Char) × Int) × Bool) :=
  if _h : levenshteinDistance > 0 then
    let r := subLoop st ((getS st sid).letters) start rest (levenshteinDistance - 1)
      maxResults allowAdd allowDelete c ignoreChar acc (st.letters.length + 1)
    if r.2.2 then r
    else if allowDelete then
      let f := searchSubString r.1 sid start rest (levenshteinDistance - 1) maxResults
        allowAdd allowDelete c
      let a := mergeWords f.2 r.2.1
      (f.1, a, decide (maxResults > 0 ∧ a.2 > maxResults))
    else r
  else (st, acc, false)
termination_by ((rest.length + levenshteinDistance.toNat, 4, 0) : Nat × Nat × Nat)
decreasing_by all_goals (simp_wf; first
  | (apply Prod.Lex.left; omega)
  | (apply Prod.Lex.right; first | (apply Prod.Lex.left; omega) | (apply Prod.Lex.right; omega) | omega)
  | (simp only [Prod.lex_iff]; omega))

/-- The trailing insertion block over the arena. -/
def insertSection (st : Store) (sid : Nat) (endBuf start : List Char)
    (levenshteinDistance maxResults : Int) (allowAdd allowDelete : Bool)
    (char ignoreChar : Char) (acc : List (List Char) × Int) :
    Store × (List (List Char) × Int) :=
  if _h : levenshteinDistance > 0 then
    if allowAdd then
      let r := addLoop st ((getS st sid).letters) start endBuf (levenshteinDistance - 1)
        maxResults allowAdd allowDelete char ignoreChar acc (st.letters.length + 1)
      (r.1, r.2.1)
    else (st, acc)
  else (st, acc)
termination_by ((endBuf.length + levenshteinDistance.toNat, 4, 0) : Nat × Nat × Nat)
decreasing_by all_goals (simp_wf; first
  | (apply Prod.Lex.left; omega)
  | (apply Prod.Lex.right; first | (apply Prod.Lex.left; omega) | (apply Prod.Lex.right; omega) | omega)
  | (simp only [Prod.lex_iff]; omega))

/-- The substitution loop over the arena: walk the letter linked list. -/
def subLoop (st : Store) (lopt : Option Nat) (start rest : List Char)
    (dm1 maxResults : Int) (allowAdd allowDelete : Bool) (char ignoreChar : Char)
    (acc : List (List Char) × Int) (fuel : Nat) :
    Store × ((List (List Char) × Int) × Bool) :=
  match fuel with
  | 0 => (st, acc, false)
  | fuel + 1 =>
    match lopt with
    | none => (st, acc, false)
    | some lid =>
      let l := getL st lid
      if l.char ≠ char ∧ l.char ≠ ignoreChar then
        match l.state with
        | some cs =>
          let f := searchSubString st cs (start ++ [l.char]) rest dm1 maxResults
            allowAdd allowDelete char
          let a := mergeWords f.2 acc
          if maxResults > 0 ∧ a.2 > maxResults then (f.1, a, true)
          else subLoop f.1 l.next start rest dm1 maxResults allowAdd allowDelete char ignoreChar a fuel
        | none => subLoop st l.next start rest dm1 maxResults allowAdd allowDelete char ignoreChar acc fuel
      else subLoop st l.next start rest dm1 maxResults allowAdd allowDelete char ignoreChar acc fuel
termination_by ((rest.length + dm1.toNat + 1, 2, fuel) : Nat × Nat × Nat)
decreasing_by all_goals (simp_wf; first
  | (apply Prod.Lex.left; omega)
  | (apply Prod.Lex.right; first | (apply Prod.Lex.left; omega) | (apply Prod.Lex.right; omega) | omega)
  | (simp only [Prod.lex_iff]; omega))

/-- The insertion loop over the arena. -/
def addLoop (st : Store) (lopt : Option Nat) (start endBuf : List Char)
    (dm1 maxResults : Int) (allowAdd allowDelete : Bool) (char ignoreChar : Char)
    (acc : List (List Char) × Int) (fuel : Nat) :
    Store × ((List (List Char) × Int) × Bool) :=
  match fuel with
  | 0 => (st, acc, false)
  | fuel + 1 =>
    match lopt with
    | none => (st, acc, false)
    | some lid =>
      let l := getL st lid
      if l.char ≠ char ∧ l.char ≠ ignoreChar then
        match l.state with
        | some cs =>
          let f := searchSubString st cs (start ++ [l.char]) endBuf dm1 maxResults
            allowAdd allowDelete nul
          let a := mergeWords f.2 acc
          if maxResults > 0 ∧ a.2 > maxResults then (f.1, a, true)
          else addLoop f.1 l.next start endBuf dm1 maxResults allowAdd allowDelete char ignoreChar a fuel
        | none => addLoop st l.next start endBuf dm1 maxResults allowAdd allowDelete char ignoreChar acc fuel
      else addLoop st l.next start endBuf dm1 maxResults allowAdd allowDelete char ignoreChar acc fuel
termination_by ((endBuf.length + dm1.toNat + 1, 2, fuel) : Nat × Nat × Nat)
decreasing_by all_goals (simp_wf; first
  | (apply Prod.Lex.left; omega)
  | (apply Prod.Lex.right; first | (apply Prod.Lex.left; omega) | (apply Prod.Lex.right; omega) | omega)
  | (simp only [Prod.lex_iff]; omega))
end

/-- Source `Search` over the arena: the graph handle's store and initial
state id, truncation, conversion.  The first component is the store after
the whole call. -/
def Search (st : Store) (initialState : Nat) (word : List Char)
    (levenshteinDistance maxResults : Int) (allowAdd allowDelete : Bool) :
    Store × Option (List (List Char)) :=
  let r := searchSubString st initialState [] word levenshteinDistance maxResults
    allowAdd allowDelete nul
  (r.1,
    match truncLoop r.2.1 r.2.2 maxResults with
    | none => none
    | some (l, sz) => convertLoop l sz)

end Arena

namespace Arena

/-! ### The pointer graph and its acyclicity certificate (claim C8)

The word graph of a store is read off the heap exactly as the source
walks it: a state reaches its letters through the `letters` root and the
`left`/`right`/`next` pointers, and each letter's `state` pointer is an
edge of the graph.  Acyclicity is witnessed by an integer ranking: the
letter structure of a state sits strictly below the state and strictly
above every state it points to, so every edge strictly decreases the
rank. -/

end Arena

/-- Construction: inserting `"ab"` then `"bb"` yields `storeTrieAB`
(5 nodes, maximal `wordSize` 2). -/
theorem storeTrieAB_built :
    Arena.buildTrie Arena.initialStore 1 0 (["ab", "bb"].map String.toList) 10 =
      some (storeTrieAB, 5, 2) := by
  decide

set_option maxHeartbeats 4000000 in
/-- First minimization run: 2 nodes merged away, producing `storeAB`. -/
theorem storeAB_minimized :
    Arena.compressTrie storeTrieAB 2 10 10 = some (storeAB, 2) := by
  decide

/-- `storeAB` is the graph `CreateDAWG` builds from `["ab", "bb"]`
(`nodesCount = 5 - 2 = 3`; maximal `wordSize` 2). -/
theorem storeAB_built :
    Arena.CreateDAWG (["ab", "bb"].map String.toList) 10 = some (storeAB, 3, 2) := by
  simp only [Arena.CreateDAWG, storeTrieAB_built, storeAB_minimized]

set_option maxHeartbeats 2000000 in
/-- Phase 1 of the second minimization run yields `storeABP1` with level
lists headed by state 4 (level 0) and state 3 (level 1). -/
theorem storeAB_phase1 :
    Arena.rootChain storeAB ((Arena.getS storeAB 0).letters) (List.replicate 2 none) 10 =
      some (storeABP1, [some 4, some 3]) := by
  decide

set_option maxHeartbeats 2000000 in
/-- The phase-2 inner scan of the second run is stuck on state 4: every
iteration finds `equals 4 4`, rewrites `next`/`letter.state` to the values
they already hold, and continues with the same configuration, so no fuel
bound suffices — the source loop never terminates. -/
theorem mergeScan_storeABP1_stuck :
    ∀ f c : Nat, Arena.mergeScan storeABP1 4 4 (some 4) c 5 f = none := by
  intro f
  induction f with
  | zero => intro c; rfl
  | succ f ih => intro c; exact ih (c + 1)

set_option maxHeartbeats 1000000 in
/-- The phase-2 outer loop on level 0 of the second run never returns. -/
theorem mergeLevel_storeABP1_none :
    ∀ f : Nat, Arena.mergeLevel storeABP1 (some 4) 0 5 f = none := by
  intro f
  cases f with
  | zero => rfl
  | succ f =>
    show (match Arena.mergeScan storeABP1 4 4 (some 4) 0 5 f with
          | none => none
          | some (st1, cnt1) =>
            Arena.mergeLevel st1 ((Arena.getS st1 4).next) cnt1 5 f) = none
    rw [mergeScan_storeABP1_stuck f 0]

set_option maxHeartbeats 1000000 in
/-- Phase 2 of the second run never returns (level 0 already diverges). -/
theorem mergeLevels_storeABP1_none :
    ∀ f : Nat, Arena.mergeLevels storeABP1 [some 4, some 3] 0 5 f = none := by
  intro f
  show (match Arena.mergeLevel storeABP1 (some 4) 0 5 f with
        | none => none
        | some (st1, cnt1) => Arena.mergeLevels st1 [some 3] cnt1 5 f) = none
  rw [mergeLevel_storeABP1_none f]


/-- `mergeWords` preserves "the tracked size is the list length". -/
theorem mergeWords_size (a b : List (List Char) × Int) (ha : a.2 = (a.1.length : Int))
    (hb : b.2 = (b.1.length : Int)) : (mergeWords a b).2 = ((mergeWords a b).1.length : Int) := by
  obtain ⟨w1, s1⟩ := a
  obtain ⟨w2, s2⟩ := b
  simp only [mergeWords]
  split
  · exact hb
  · simp only [List.length_append]
    simp only at ha hb
    push_cast
    omega

/-- The substitution loop preserves the size invariant. -/
theorem subLoop_size (start rest : List Char) (dm1 mr : Int) (aa ad : Bool) (ch ig : Char)
    (Hs : ∀ (lst : state) (pre : List Char),
        (searchSubString lst pre rest dm1 mr aa ad ch).2 =
          ((searchSubString lst pre rest dm1 mr aa ad ch).1.length : Int)) :
    ∀ (ls : List (Char × state)) (acc : List (List Char) × Int),
      acc.2 = (acc.1.length : Int) →
        (subLoop ls start rest dm1 mr aa ad ch ig acc).1.2 =
          (((subLoop ls start rest dm1 mr aa ad ch ig acc).1.1.length : Int)) := by
  intro ls
  induction ls with
  | nil => intro acc h; simpa [subLoop] using h
  | cons p tl ihl =>
    obtain ⟨lc, lst⟩ := p
    intro acc h
    simp only [subLoop]
    split
    · try dsimp only
      split
      · exact mergeWords_size _ _ (Hs lst _) h
      · exact ihl _ (mergeWords_size _ _ (Hs lst _) h)
    · exact ihl _ h

/-- The insertion loop preserves the size invariant. -/
theorem addLoop_size (start endBuf : List Char) (dm1 mr : Int) (aa ad : Bool) (ch ig : Char)
    (Hs : ∀ (lst : state) (pre : List Char),
        (searchSubString lst pre endBuf dm1 mr aa ad nul).2 =
          ((searchSubString lst pre endBuf dm1 mr aa ad nul).1.length : Int)) :
    ∀ (ls : List (Char × state)) (acc : List (List Char) × Int),
      acc.2 = (acc.1.length : Int) →
        (addLoop ls start endBuf dm1 mr aa ad ch ig acc).1.2 =
          (((addLoop ls start endBuf dm1 mr aa ad ch ig acc).1.1.length : Int)) := by
  intro ls
  induction ls with
  | nil => intro acc h; simpa [addLoop] using h
  | cons p tl ihl =>
    obtain ⟨lc, lst⟩ := p
    intro acc h
    simp only [addLoop]
    split
    · try dsimp only
      split
      · exact mergeWords_size _ _ (Hs lst _) h
      · exact ihl _ (mergeWords_size _ _ (Hs lst _) h)
    · exact ihl _ h

/-- The exact-match section preserves the size invariant. -/
theorem exactSection_size (st : state) (start : List Char) (c : Char) (rest : List Char)
    (d mr : Int) (aa ad : Bool) (ig : Char)
    (Hs : ∀ (child : state) (pre : List Char),
        (searchSubString child pre rest d mr aa ad nul).2 =
          ((searchSubString child pre rest d mr aa ad nul).1.length : Int)) :
    (exactSection st start c rest d mr aa ad ig).1.2 =
      ((exactSection st start c rest d mr aa ad ig).1.1.length : Int) := by
  rw [exactSection]
  split
  · split
    next child _hget => exact mergeWords_size _ _ (Hs child _) (by simp)
    next _hget => simp
  · simp

/-- The substitution/deletion section preserves the size invariant. -/
theorem fuzzySection_size (st : state) (start : List Char) (c : Char) (rest : List Char)
    (d mr : Int) (aa ad : Bool) (ig : Char) (acc : List (List Char) × Int)
    (Hsub : d > 0 → ∀ (lst : state) (pre : List Char),
        (searchSubString lst pre rest (d - 1) mr aa ad c).2 =
          ((searchSubString lst pre rest (d - 1) mr aa ad c).1.length : Int))
    (hacc : acc.2 = (acc.1.length : Int)) :
    (fuzzySection st start c rest d mr aa ad ig acc).1.2 =
      ((fuzzySection st start c rest d mr aa ad ig acc).1.1.length : Int) := by
  rw [fuzzySection]
  split
  next hd =>
    try dsimp only
    split
    · exact subLoop_size start rest (d - 1) mr aa ad c ig (Hsub hd) _ _ hacc
    · split
      · exact mergeWords_size _ _ (Hsub hd st start)
          (subLoop_size start rest (d - 1) mr aa ad c ig (Hsub hd) _ _ hacc)
      · exact subLoop_size start rest (d - 1) mr aa ad c ig (Hsub hd) _ _ hacc
  next => exact hacc

/-- The insertion section preserves the size invariant. -/
theorem insertSection_size (st : state) (endBuf start : List Char)
    (d mr : Int) (aa ad : Bool) (ch ig : Char) (acc : List (List Char) × Int)
    (Hs : d > 0 → ∀ (lst : state) (pre : List Char),
        (searchSubString lst pre endBuf (d - 1) mr aa ad nul).2 =
          ((searchSubString lst pre endBuf (d - 1) mr aa ad nul).1.length : Int))
    (hacc : acc.2 = (acc.1.length : Int)) :
    (insertSection st endBuf start d mr aa ad ch ig acc).2 =
      ((insertSection st endBuf start d mr aa ad ch ig acc).1.length : Int) := by
  rw [insertSection]
  split
  next hd =>
    split
    · exact addLoop_size start endBuf (d - 1) mr aa ad ch ig (Hs hd) _ _ hacc
    · exact hacc
  next => exact hacc

/-- `searchSubString` keeps `wordsSize` equal to the length of the
found-word list (induction on the combined query/budget measure). -/
theorem searchSubString_size_le : ∀ (N : Nat) (st : state) (start endBuf : List Char)
    (d mr : Int) (aa ad : Bool) (ig : Char), endBuf.length + d.toNat ≤ N →
    (searchSubString st start endBuf d mr aa ad ig).2 =
      ((searchSubString st start endBuf d mr aa ad ig).1.length : Int) := by
  intro N
  induction N with
  | zero =>
    intro st start endBuf d mr aa ad ig hle
    cases endBuf with
    | nil =>
      rw [searchSubString.eq_2]
      try dsimp only
      rw [insertSection]
      rw [dif_neg (by omega)]
      split <;> simp
    | cons c rest => simp at hle
  | succ N ih =>
    intro st start endBuf d mr aa ad ig hle
    cases endBuf with
    | nil =>
      rw [searchSubString.eq_2]
      try dsimp only
      apply insertSection_size
      · intro hd lst pre
        exact ih lst pre [] (d - 1) mr aa ad nul (by simp at hle ⊢; omega)
      · split <;> simp
    | cons c rest =>
      simp only [List.length_cons] at hle
      have h1 : (exactSection st start c rest d mr aa ad ig).1.2 =
          ((exactSection st start c rest d mr aa ad ig).1.1.length : Int) :=
        exactSection_size st start c rest d mr aa ad ig
          (fun child pre => ih child pre rest d mr aa ad nul (by omega))
      have h2 : (fuzzySection st start c rest d mr aa ad ig
            (exactSection st start c rest d mr aa ad ig).1).1.2 =
          ((fuzzySection st start c rest d mr aa ad ig
            (exactSection st start c rest d mr aa ad ig).1).1.1.length : Int) :=
        fuzzySection_size st start c rest d mr aa ad ig _
          (fun hd lst pre => ih lst pre rest (d - 1) mr aa ad c (by omega)) h1
      rw [searchSubString.eq_1]
      try dsimp only
      split
      · exact h1
      · split
        · exact h2
        · exact insertSection_size st (c :: rest) start d mr aa ad c ig _
            (fun hd lst pre => ih lst pre (c :: rest) (d - 1) mr aa ad nul
              (by simp only [List.length_cons]; omega)) h2

/-- `searchSubString` keeps `wordsSize` equal to the found-list length. -/
theorem searchSubString_size (st : state) (start endBuf : List Char)
    (d mr : Int) (aa ad : Bool) (ig : Char) :
    (searchSubString st start endBuf d mr aa ad ig).2 =
      ((searchSubString st start endBuf d mr aa ad ig).1.length : Int) :=
  searchSubString_size_le (endBuf.length + d.toNat) st start endBuf d mr aa ad ig le_rfl

/-- On a normal exit (the loop condition has failed), the truncation loop
returns `wordsSize ≤ maxResults`. -/
theorem truncLoop_le : ∀ (l : List (List Char)) (sz mr : Int) (l2 : List (List Char)) (sz2 : Int),
    truncLoop l sz mr = some (l2, sz2) → sz2 ≤ mr := by
  intro l
  induction l with
  | nil =>
    intro sz mr l2 sz2 h
    rw [truncLoop.eq_def] at h
    dsimp only at h
    split at h
    · simp at h
    next hgt =>
      simp only [Option.some.injEq, Prod.mk.injEq] at h
      obtain ⟨-, h2⟩ := h
      omega
  | cons w t ih =>
    intro sz mr l2 sz2 h
    rw [truncLoop.eq_def] at h
    dsimp only at h
    split at h
    · exact ih _ _ _ _ h
    next hgt =>
      simp only [Option.some.injEq, Prod.mk.injEq] at h
      obtain ⟨-, h2⟩ := h
      omega

/-- When `wordsSize` does not exceed `maxResults`, the truncation loop
drops nothing. -/
theorem truncLoop_noDrop (l : List (List Char)) (sz mr : Int) (h : ¬sz > mr) :
    truncLoop l sz mr = some (l, sz) := by
  rw [truncLoop.eq_def, if_neg h]

/-- With `maxResults = 0` the truncation loop walks off the whole list,
returning the empty list. -/
theorem truncLoop_zero : ∀ (l : List (List Char)),
    truncLoop l (l.length : Int) 0 = some ([], 0) := by
  intro l
  induction l with
  | nil => simp [truncLoop.eq_def]
  | cons w t ih =>
    rw [truncLoop.eq_def, if_pos (by simp only [List.length_cons]; push_cast; omega)]
    show truncLoop t (((w :: t).length : Int) - 1) 0 = some ([], 0)
    rw [show (((w :: t).length : Nat) : Int) - 1 = (t.length : Int) by simp only [List.length_cons]; push_cast; omega]
    exact ih

/-- With `maxResults < 0` the truncation loop exhausts the list and then
dereferences the nil head: it never returns. -/
theorem truncLoop_neg : ∀ (l : List (List Char)) (mr : Int), mr < 0 →
    truncLoop l (l.length : Int) mr = none := by
  intro l
  induction l with
  | nil =>
    intro mr hmr
    rw [truncLoop.eq_def, if_pos (by simpa using hmr)]
  | cons w t ih =>
    intro mr hmr
    rw [truncLoop.eq_def, if_pos (by simp only [List.length_cons]; push_cast; omega)]
    show truncLoop t (((w :: t).length : Int) - 1) mr = none
    rw [show (((w :: t).length : Nat) : Int) - 1 = (t.length : Int) by simp only [List.length_cons]; push_cast; omega]
    exact ih mr hmr

/-- The output loop produces an array of exactly `wordsSize` entries. -/
theorem convertLoop_length : ∀ (l out : List (List Char)) (sz : Int),
    convertLoop l sz = some out → out.length = sz.toNat := by
  intro l
  induction l with
  | nil =>
    intro out sz h
    rw [convertLoop.eq_def] at h
    dsimp only at h
    split at h
    · simp at h
    next hsz =>
      simp only [Option.some.injEq] at h
      subst h
      try simp only [List.length_nil]
      omega
  | cons w t ih =>
    intro out sz h
    rw [convertLoop.eq_def] at h
    dsimp only at h
    split at h
    next hsz =>
      split at h
      next r hr =>
        simp only [Option.some.injEq] at h
        subst h
        have := ih r (sz - 1) hr
        simp only [List.length_append, List.length_singleton, this]
        omega
      · simp at h
    next hsz =>
      simp only [Option.some.injEq] at h
      subst h
      try simp only [List.length_nil]
      omega

/-- Applied to a list and its own length, the output loop returns the
reversed list (the array is filled from the back). -/
theorem convertLoop_full : ∀ (l : List (List Char)),
    convertLoop l (l.length : Int) = some l.reverse := by
  intro l
  induction l with
  | nil => simp [convertLoop.eq_def]
  | cons w t ih =>
    rw [convertLoop.eq_def, if_pos (by simp only [List.length_cons]; push_cast; omega)]
    show (match convertLoop t (((w :: t).length : Int) - 1) with
      | some r => some (r ++ [w])
      | none => none) = some (w :: t).reverse
    rw [show (((w :: t).length : Nat) : Int) - 1 = (t.length : Int) by simp only [List.length_cons]; push_cast; omega]
    rw [ih]
    simp

/-- C1: `addWord` does not report the word length in Unicode code points.
For the two-code-point word `"日本"` (three UTF-8 bytes per character) the
returned `wordSize` is 4 — the byte offset of the last rune plus one from
Go's `for i, l := range word` — where the claim requires 2.  The code's
own comment (`// We can't use len() on UTF-8 strings`) and the spec intend
the code-point count. -/
theorem c1_addWord_reports_byte_offset_not_codepoints :
    (addWord (state.mk false []) "日本".toList).2.1 = 4 ∧ ("日本".toList).length = 2 := by
  constructor <;> rfl

/-- C2 counterexample: with `maxResults = 0` the traversal finds the word
`"a"` in the graph of `{"a"}` (`wordsSize = 1`), but `Search` returns the
empty sequence — the found word is dropped by the truncation loop, so
`maxResults ≤ 0` does not disable truncation. -/
theorem c2_counterexample :
    searchSubString (addWordAux (state.mk false []) ['a']).1 [] ['a'] 0 0 false false nul =
        ([['a']], 1) ∧
      Search (addWordAux (state.mk false []) ['a']).1 ['a'] 0 0 false false = some [] := by
  constructor <;> simp [Search, searchSubString, exactSection, fuzzySection, insertSection, subLoop, addLoop, getletter, mergeWords, truncLoop, convertLoop, addWordAux, insertChar, updateIn, accepts, nul, state.letters, state.final]

/-- C2 amended: `maxResults = 0` disables only the early pruning inside
the traversal; the final truncation loop then drops every found word, so
`Search` always returns the empty sequence (and `maxResults < 0` returns
no sequence at all, see C10). -/
theorem c2_zero_max_results_truncates_everything
    (dawg : state) (word : List Char) (levenshteinDistance : Int)
    (allowAdd allowDelete : Bool) :
    Search dawg word levenshteinDistance 0 allowAdd allowDelete = some [] := by
  rw [Search]
  try dsimp only
  rw [searchSubString_size, truncLoop_zero]
  simp [convertLoop.eq_def]

/-- C3: whenever `Search` with a positive `maxResults = k` returns a
sequence, that sequence has at most `k` entries: the truncation loop only
exits with `wordsSize ≤ maxResults`, and the output loop produces exactly
`wordsSize` entries. -/
theorem c3_result_cap (dawg : state) (word : List Char) (levenshteinDistance k : Int)
    (allowAdd allowDelete : Bool) (out : List (List Char)) (hk : 0 < k)
    (h : Search dawg word levenshteinDistance k allowAdd allowDelete = some out) :
    (out.length : Int) ≤ k := by
  rw [Search] at h
  try dsimp only at h
  split at h
  · simp at h
  next l sz htr =>
    have hle := truncLoop_le _ _ _ _ _ htr
    have hlen := convertLoop_length _ _ _ h
    omega

/-- C3 witness: searching the graph of `{"a"}` for `"a"` with
`maxResults = 1` returns one word, within the cap. -/
theorem c3_result_cap_witness :
    (([['a']] : List (List Char)).length : Int) ≤ 1 :=
  c3_result_cap (addWordAux (state.mk false []) ['a']).1 ['a'] 0 1 false false [['a']]
    (by norm_num) (by simp [Search, searchSubString, exactSection, fuzzySection, insertSection, subLoop, addLoop, getletter, mergeWords, truncLoop, convertLoop, addWordAux, insertChar, updateIn, accepts, nul, state.letters, state.final])

/-- C10: with a negative `maxResults`, the truncation loop's condition
`wordsSize > maxResults` still holds when the found-word list has been
exhausted, so the loop dereferences the nil `nextWord` pointer: `Search`
returns nothing (the source panics).  The hypothesis is the claim's "at
least one word found". -/
theorem c10_negative_max_results_panics (dawg : state) (word : List Char)
    (levenshteinDistance maxResults : Int) (allowAdd allowDelete : Bool)
    (hmr : maxResults < 0)
    (hfound : 1 ≤ (searchSubString dawg [] word levenshteinDistance maxResults
      allowAdd allowDelete nul).2) :
    Search dawg word levenshteinDistance maxResults allowAdd allowDelete = none := by
  rw [Search]
  try dsimp only
  rw [searchSubString_size, truncLoop_neg _ _ hmr]

/-- C10 witness: the graph of `{"a"}` searched for `"a"` with
`maxResults = -1` finds one word and panics. -/
theorem c10_negative_max_results_panics_witness :
    Search (addWordAux (state.mk false []) ['a']).1 ['a'] 0 (-1) false false = none :=
  c10_negative_max_results_panics _ _ _ _ _ _ (by norm_num) (by simp [Search, searchSubString, exactSection, fuzzySection, insertSection, subLoop, addLoop, getletter, mergeWords, truncLoop, convertLoop, addWordAux, insertChar, updateIn, accepts, nul, state.letters, state.final])

set_option maxHeartbeats 2000000 in
/-- C5: `CreateDAWG` on `{"test","rest","nest","note"}` reports exactly 8
live states (16 trie nodes including the root, minus 8 merged away). -/
theorem c5_construction_count :
    (CreateDAWG (["test", "rest", "nest", "note"].map String.toList)).2 = 8 := by
  simp [CreateDAWG, addWord, addWordAux, insertChar, updateIn, wordSizeGo, wordSizeGoAux,
    compressTrie, levelList, scanLevel, subStates, subStatesL, levelOf, levelOfL,
    equals, subsetLetters, containsLetter, state.letters, state.final,
    List.range, List.range.loop, String.toList, mergeWords]

/-- C6: the graph `CreateDAWG` builds from `{"ab","bb"}` is already
minimized (2 merges, 3 live states), and running `compressTrie` on it a
second time with the same `maxWordSize` never returns: the level lists of
the second run contain the shared states twice, their `next` pointers
become self-loops, and the merge scan spins forever (claim: it returns 0).
-/
theorem c6_second_minimization_run_diverges :
    Arena.CreateDAWG (["ab", "bb"].map String.toList) 10 = some (storeAB, 3, 2) ∧
      secondMinimizationRunDiverges := by
  refine ⟨storeAB_built, ?_⟩
  intro mergeFuel
  show Arena.mergeLevels storeABP1 [some 4, some 3] 0 5 mergeFuel = none
  exact mergeLevels_storeABP1_none mergeFuel

/-- With a zero edit budget, `searchSubString` follows exactly the query
path: it returns the query (prefixed) iff the path exists and ends final,
provided `maxResults ≥ 1` (no pruning can fire on a single result) and the
query avoids the zero rune (which the exact branch skips as the initial
ignore character). -/
theorem searchSubString_exact (mr : Int) (hmr : 1 ≤ mr) :
    ∀ (q : List Char) (st : state) (pre : List Char) (aa ad : Bool),
      (∀ c ∈ q, c ≠ nul) →
      searchSubString st pre q 0 mr aa ad nul =
        if accepts st q then ([pre ++ q], 1) else ([], 0) := by
  intro q
  induction q with
  | nil =>
    intro st pre aa ad _hq
    rw [searchSubString.eq_2]
    try dsimp only
    rw [insertSection, dif_neg (by norm_num)]
    rw [accepts]
    split <;> simp
  | cons c rest ih =>
    intro st pre aa ad hq
    have hc : c ≠ nul := hq c (by simp)
    have hfz : fuzzySection st pre c rest 0 mr aa ad nul = fun acc => (acc, false) := by
      funext acc
      rw [fuzzySection, dif_neg (by norm_num)]
    have hins : ∀ acc, insertSection st (c :: rest) pre 0 mr aa ad c nul acc = acc := by
      intro acc
      rw [insertSection, dif_neg (by norm_num)]
    rw [searchSubString.eq_1]
    try dsimp only
    rw [hfz]
    try dsimp only
    rw [hins]
    rw [exactSection, if_pos hc]
    rw [accepts]
    cases hget : getletter st c with
    | some child =>
      try dsimp only
      rw [ih child (pre ++ [c]) aa ad (fun x hx => hq x (by simp [hx]))]
      by_cases hacc : accepts child rest
      · rw [if_pos hacc, if_pos hacc]
        have hm : mergeWords ([pre ++ [c] ++ rest], 1) ([], 0) = ([pre ++ [c] ++ rest], 1) := by
          simp [mergeWords]
        rw [hm]
        have hflag : decide (mr > 0 ∧ (([pre ++ [c] ++ rest], 1) : List (List Char) × Int).2 > mr) = false := by
          simp only [decide_eq_false_iff_not]
          skip
          omega
        rw [hflag]
        simp
      · rw [if_neg hacc, if_neg hacc]
        have hm : mergeWords (([], 0) : List (List Char) × Int) ([], 0) = ([], 0) := by
          simp [mergeWords]
        rw [hm]
        simp
    | none =>
      try dsimp only
      simp

/-- C4 counterexample: the word consisting of the single zero rune U+0000
is accepted by the graph built from it, but a distance-0 `Search` for it
returns nothing: the query character equals the initial `ignoreChar` 0, so
the exact branch is skipped. -/
theorem c4_counterexample :
    accepts (addWordAux (state.mk false []) [nul]).1 [nul] = true ∧
      Search (addWordAux (state.mk false []) [nul]).1 [nul] 0 1 false false = some [] := by
  constructor
  · simp [accepts, addWordAux, insertChar, getletter, state.letters, state.final]
  · simp [Search, searchSubString, exactSection, fuzzySection, insertSection, subLoop,
      addLoop, getletter, mergeWords, truncLoop, convertLoop, addWordAux, insertChar,
      accepts, state.letters, state.final]

/-- C4 amended: for queries that avoid the zero rune and `maxResults ≥ 1`,
`Search` with `max_edit_distance = 0` is an exact-membership check: it
returns the query itself exactly when the query is accepted, and nothing
otherwise (at most one result). -/
theorem c4_exact_match (dawg : state) (q : List Char) (mr : Int) (aa ad : Bool)
    (hmr : 1 ≤ mr) (hq : ∀ c ∈ q, c ≠ nul) :
    Search dawg q 0 mr aa ad = some (if accepts dawg q then [q] else []) := by
  rw [Search]
  try dsimp only
  rw [searchSubString_exact mr hmr q dawg [] aa ad hq]
  by_cases hacc : accepts dawg q
  · rw [if_pos hacc, if_pos hacc]
    try dsimp only
    rw [truncLoop_noDrop _ _ _ (by norm_num; omega)]
    rw [show (1 : Int) = (([([] : List Char) ++ q] : List (List Char)).length : Int) by simp]
    try dsimp only
    rw [convertLoop_full]
    simp
  · rw [if_neg hacc, if_neg hacc]
    try dsimp only
    rw [truncLoop_noDrop _ _ _ (by omega)]
    simp [convertLoop.eq_def]

/-- C4 witness: the graph of `{"ab"}` searched for `"ab"` at distance 0
returns exactly `["ab"]`. -/
theorem c4_exact_match_witness :
    Search (addWordAux (state.mk false []) ['a', 'b']).1 ['a', 'b'] 0 1 false false =
      some (if accepts (addWordAux (state.mk false []) ['a', 'b']).1 ['a', 'b']
        then [['a', 'b']] else []) :=
  c4_exact_match _ _ 1 false false (by norm_num) (by decide)

/-- A letter list's level bound: every child's level is strictly below the
level of a state carrying that list. -/
theorem levelOfL_lt : ∀ (ls : List (Char × state)) (c : Char) (t : state),
    (c, t) ∈ ls → levelOf t < levelOfL ls := by
  intro ls
  induction ls with
  | nil => simp
  | cons p r ih =>
    intro c t hmem
    obtain ⟨c0, t0⟩ := p
    rw [levelOfL]
    rcases List.mem_cons.mp hmem with h1 | h2
    · cases h1
      have := le_max_left (levelOf t + 1) (levelOfL r)
      omega
    · have := ih c t h2
      have h3 := le_max_right (levelOf t0 + 1) (levelOfL r)
      omega

/-- The arena substitution loop returns its input store unchanged. -/
theorem Arena.subLoop_frame (start rest : List Char) (dm1 mr : Int) (aa ad : Bool)
    (ch ig : Char)
    (Hs : ∀ (stx : Store) (cs : Nat) (pre : List Char),
        (searchSubString stx cs pre rest dm1 mr aa ad ch).1 = stx) :
    ∀ (fuel : Nat) (st : Store) (lopt : Option Nat) (acc : List (List Char) × Int),
      (subLoop st lopt start rest dm1 mr aa ad ch ig acc fuel).1 = st := by
  intro fuel
  induction fuel with
  | zero => intro st lopt acc; rw [subLoop.eq_def]
  | succ fuel ih =>
    intro st lopt acc
    rw [subLoop.eq_def]
    try dsimp only
    cases lopt with
    | none => rfl
    | some lid =>
      try dsimp only
      split
      next hg =>
        cases hstate : (getL st lid).state with
        | some cs =>
          try dsimp only
          split
          · exact Hs st cs _
          · rw [ih]
            exact Hs st cs _
        | none => exact ih st _ _
      next hg => exact ih st _ _

/-- The arena insertion loop returns its input store unchanged. -/
theorem Arena.addLoop_frame (start endBuf : List Char) (dm1 mr : Int) (aa ad : Bool)
    (ch ig : Char)
    (Hs : ∀ (stx : Store) (cs : Nat) (pre : List Char),
        (searchSubString stx cs pre endBuf dm1 mr aa ad nul).1 = stx) :
    ∀ (fuel : Nat) (st : Store) (lopt : Option Nat) (acc : List (List Char) × Int),
      (addLoop st lopt start endBuf dm1 mr aa ad ch ig acc fuel).1 = st := by
  intro fuel
  induction fuel with
  | zero => intro st lopt acc; rw [addLoop.eq_def]
  | succ fuel ih =>
    intro st lopt acc
    rw [addLoop.eq_def]
    try dsimp only
    cases lopt with
    | none => rfl
    | some lid =>
      try dsimp only
      split
      next hg =>
        cases hstate : (getL st lid).state with
        | some cs =>
          try dsimp only
          split
          · exact Hs st cs _
          · rw [ih]
            exact Hs st cs _
        | none => exact ih st _ _
      next hg => exact ih st _ _

/-- The arena exact-match section returns its input store unchanged. -/
theorem Arena.exactSection_frame (st : Store) (sid : Nat) (start : List Char) (c : Char)
    (rest : List Char) (d mr : Int) (aa ad : Bool) (ig : Char)
    (Hs : ∀ (stx : Store) (cs : Nat) (pre : List Char),
        (searchSubString stx cs pre rest d mr aa ad nul).1 = stx) :
    (exactSection st sid start c rest d mr aa ad ig).1 = st := by
  rw [exactSection]
  split
  · split
    · split
      · exact Hs st _ _
      · rfl
    · rfl
  · rfl

/-- The arena substitution/deletion section returns its input store. -/
theorem Arena.fuzzySection_frame (st : Store) (sid : Nat) (start : List Char) (c : Char)
    (rest : List Char) (d mr : Int) (aa ad : Bool) (ig : Char) (acc : List (List Char) × Int)
    (Hsub : d > 0 → ∀ (stx : Store) (cs : Nat) (pre : List Char),
        (searchSubString stx cs pre rest (d - 1) mr aa ad c).1 = stx) :
    (fuzzySection st sid start c rest d mr aa ad ig acc).1 = st := by
  rw [fuzzySection]
  split
  next hd =>
    try dsimp only
    have hr := subLoop_frame start rest (d - 1) mr aa ad c ig (Hsub hd)
      (st.letters.length + 1) st ((getS st sid).letters) acc
    split
    · exact hr
    · split
      · rw [Hsub hd]
        exact hr
      · exact hr
  next => rfl

/-- The arena insertion section returns its input store. -/
theorem Arena.insertSection_frame (st : Store) (sid : Nat) (endBuf start : List Char)
    (d mr : Int) (aa ad : Bool) (ch ig : Char) (acc : List (List Char) × Int)
    (Hs : d > 0 → ∀ (stx : Store) (cs : Nat) (pre : List Char),
        (searchSubString stx cs pre endBuf (d - 1) mr aa ad nul).1 = stx) :
    (insertSection st sid endBuf start d mr aa ad ch ig acc).1 = st := by
  rw [insertSection]
  split
  next hd =>
    split
    · exact addLoop_frame start endBuf (d - 1) mr aa ad ch ig (Hs hd)
        (st.letters.length + 1) st ((getS st sid).letters) acc
    · rfl
  next => rfl

/-- The arena `searchSubString` returns its input store unchanged
(induction on the query/budget measure). -/
theorem Arena.searchSubString_frame_le : ∀ (N : Nat) (st : Store) (sid : Nat)
    (start endBuf : List Char) (d mr : Int) (aa ad : Bool) (ig : Char),
    endBuf.length + d.toNat ≤ N →
    (searchSubString st sid start endBuf d mr aa ad ig).1 = st := by
  intro N
  induction N with
  | zero =>
    intro st sid start endBuf d mr aa ad ig hle
    cases endBuf with
    | nil =>
      rw [searchSubString.eq_2]
      try dsimp only
      rw [insertSection, dif_neg (by omega)]
    | cons c rest => simp at hle
  | succ N ih =>
    intro st sid start endBuf d mr aa ad ig hle
    cases endBuf with
    | nil =>
      rw [searchSubString.eq_2]
      try dsimp only
      exact insertSection_frame st sid [] start d mr aa ad nul ig _
        (fun hd stx cs pre => ih stx cs pre [] (d - 1) mr aa ad nul (by simp at hle ⊢; omega))
    | cons c rest =>
      simp only [List.length_cons] at hle
      have h1 : (exactSection st sid start c rest d mr aa ad ig).1 = st :=
        exactSection_frame st sid start c rest d mr aa ad ig
          (fun stx cs pre => ih stx cs pre rest d mr aa ad nul (by omega))
      have h2 : ∀ (stx : Store) (acc : List (List Char) × Int),
          (fuzzySection stx sid start c rest d mr aa ad ig acc).1 = stx :=
        fun stx acc => fuzzySection_frame stx sid start c rest d mr aa ad ig acc
          (fun hd sty cs pre => ih sty cs pre rest (d - 1) mr aa ad c (by omega))
      have h3 : ∀ (stx : Store) (acc : List (List Char) × Int),
          (insertSection stx sid (c :: rest) start d mr aa ad c ig acc).1 = stx :=
        fun stx acc => insertSection_frame stx sid (c :: rest) start d mr aa ad c ig acc
          (fun hd sty cs pre => ih sty cs pre (c :: rest) (d - 1) mr aa ad nul
            (by simp only [List.length_cons]; omega))
      rw [searchSubString.eq_1]
      try dsimp only
      split
      · exact h1
      · split
        · rw [h2, h1]
        · rw [h3, h2, h1]

/-- C9: a `Search` call mutates nothing: both the recursive traversal and
the full `Search` return the store — every state's `final` flag, letter
tree, letter targets, and (untouched) node count — exactly as given. -/
theorem c9_search_no_mutation (st : Arena.Store) (sid : Nat) (start word : List Char)
    (d mr : Int) (aa ad : Bool) (ig : Char) :
    (Arena.searchSubString st sid start word d mr aa ad ig).1 = st ∧
      (Arena.Search st sid word d mr aa ad).1 = st := by
  constructor
  · exact Arena.searchSubString_frame_le (word.length + d.toNat) st sid start word
      d mr aa ad ig le_rfl
  · rw [Arena.Search]
    try dsimp only
    exact Arena.searchSubString_frame_le (word.length + d.toNat) st sid [] word
      d mr aa ad nul le_rfl

/-- Membership in a merged found-word pair. -/
theorem mem_mergeWords (a b : List (List Char) × Int) (w : List Char) :
    w ∈ (mergeWords a b).1 ↔ w ∈ a.1 ∨ w ∈ b.1 := by
  obtain ⟨w1, s1⟩ := a
  obtain ⟨w2, s2⟩ := b
  simp only [mergeWords]
  split
  next h => simp [h]
  next h => simp

/-- With `maxResults = 0` the substitution loop never requests an early
return. -/
theorem subLoop_flag_zero : ∀ (ls : List (Char × state)) (start rest : List Char)
    (dm1 : Int) (aa ad : Bool) (ch ig : Char) (acc : List (List Char) × Int),
    (subLoop ls start rest dm1 0 aa ad ch ig acc).2 = false := by
  intro ls
  induction ls with
  | nil => intro start rest dm1 aa ad ch ig acc; simp [subLoop]
  | cons p tl ih =>
    intro start rest dm1 aa ad ch ig acc
    obtain ⟨lc, lst⟩ := p
    simp only [subLoop]
    split
    · rw [if_neg (by omega)]
      exact ih ..
    · exact ih ..

/-- With `maxResults = 0` the insertion loop never requests an early
return. -/
theorem addLoop_flag_zero : ∀ (ls : List (Char × state)) (start endBuf : List Char)
    (dm1 : Int) (aa ad : Bool) (ch ig : Char) (acc : List (List Char) × Int),
    (addLoop ls start endBuf dm1 0 aa ad ch ig acc).2 = false := by
  intro ls
  induction ls with
  | nil => intro start endBuf dm1 aa ad ch ig acc; simp [addLoop]
  | cons p tl ih =>
    intro start endBuf dm1 aa ad ch ig acc
    obtain ⟨lc, lst⟩ := p
    simp only [addLoop]
    split
    · rw [if_neg (by omega)]
      exact ih ..
    · exact ih ..

/-- With `maxResults = 0` the exact-match section never requests an early
return. -/
theorem exactSection_flag_zero (st : state) (start : List Char) (c : Char) (rest : List Char)
    (d : Int) (aa ad : Bool) (ig : Char) :
    (exactSection st start c rest d 0 aa ad ig).2 = false := by
  rw [exactSection]
  split
  · split
    · simp only [decide_eq_false_iff_not]
      omega
    · rfl
  · rfl

/-- With `maxResults = 0` the substitution/deletion section never requests
an early return. -/
theorem fuzzySection_flag_zero (st : state) (start : List Char) (c : Char) (rest : List Char)
    (d : Int) (aa ad : Bool) (ig : Char) (acc : List (List Char) × Int) :
    (fuzzySection st start c rest d 0 aa ad ig acc).2 = false := by
  rw [fuzzySection]
  split
  next hd =>
    try dsimp only
    rw [if_neg (by rw [subLoop_flag_zero]; simp)]
    split
    · simp only [decide_eq_false_iff_not]
      omega
    · rw [subLoop_flag_zero]
  next => rfl

/-- Membership in the substitution loop's result with `maxResults = 0`:
one of the per-letter substitution searches found it, or it was already in
the accumulator. -/
theorem subLoop_mem_zero : ∀ (ls : List (Char × state)) (start rest : List Char)
    (dm1 : Int) (aa ad : Bool) (ch ig : Char) (acc : List (List Char) × Int) (w : List Char),
    w ∈ (subLoop ls start rest dm1 0 aa ad ch ig acc).1.1 ↔
      ((∃ p ∈ ls, p.1 ≠ ch ∧ p.1 ≠ ig ∧
          w ∈ (searchSubString p.2 (start ++ [p.1]) rest dm1 0 aa ad ch).1) ∨ w ∈ acc.1) := by
  intro ls
  induction ls with
  | nil => intro start rest dm1 aa ad ch ig acc w; simp [subLoop]
  | cons p tl ih =>
    intro start rest dm1 aa ad ch ig acc w
    obtain ⟨lc, lst⟩ := p
    simp only [subLoop]
    split
    next hg =>
      rw [if_neg (by omega)]
      rw [ih]
      rw [mem_mergeWords]
      simp only [List.mem_cons, exists_eq_or_imp]
      constructor
      · rintro (htl | hf | hacc)
        · exact Or.inl (Or.inr htl)
        · exact Or.inl (Or.inl ⟨hg.1, hg.2, hf⟩)
        · exact Or.inr hacc
      · rintro ((⟨-, -, hf⟩ | htl) | hacc)
        · exact Or.inr (Or.inl hf)
        · exact Or.inl htl
        · exact Or.inr (Or.inr hacc)
    next hg =>
      rw [ih]
      simp only [List.mem_cons, exists_eq_or_imp]
      constructor
      · rintro (htl | hacc)
        · exact Or.inl (Or.inr htl)
        · exact Or.inr hacc
      · rintro ((⟨ha, hb, -⟩ | htl) | hacc)
        · exact absurd ⟨ha, hb⟩ hg
        · exact Or.inl htl
        · exact Or.inr hacc

/-- Membership in the insertion loop's result with `maxResults = 0`. -/
theorem addLoop_mem_zero : ∀ (ls : List (Char × state)) (start endBuf : List Char)
    (dm1 : Int) (aa ad : Bool) (ch ig : Char) (acc : List (List Char) × Int) (w : List Char),
    w ∈ (addLoop ls start endBuf dm1 0 aa ad ch ig acc).1.1 ↔
      ((∃ p ∈ ls, p.1 ≠ ch ∧ p.1 ≠ ig ∧
          w ∈ (searchSubString p.2 (start ++ [p.1]) endBuf dm1 0 aa ad nul).1) ∨ w ∈ acc.1) := by
  intro ls
  induction ls with
  | nil => intro start endBuf dm1 aa ad ch ig acc w; simp [addLoop]
  | cons p tl ih =>
    intro start endBuf dm1 aa ad ch ig acc w
    obtain ⟨lc, lst⟩ := p
    simp only [addLoop]
    split
    next hg =>
      rw [if_neg (by omega)]
      rw [ih]
      rw [mem_mergeWords]
      simp only [List.mem_cons, exists_eq_or_imp]
      constructor
      · rintro (htl | hf | hacc)
        · exact Or.inl (Or.inr htl)
        · exact Or.inl (Or.inl ⟨hg.1, hg.2, hf⟩)
        · exact Or.inr hacc
      · rintro ((⟨-, -, hf⟩ | htl) | hacc)
        · exact Or.inr (Or.inl hf)
        · exact Or.inl htl
        · exact Or.inr (Or.inr hacc)
    next hg =>
      rw [ih]
      simp only [List.mem_cons, exists_eq_or_imp]
      constructor
      · rintro (htl | hacc)
        · exact Or.inl (Or.inr htl)
        · exact Or.inr hacc
      · rintro ((⟨ha, hb, -⟩ | htl) | hacc)
        · exact absurd ⟨ha, hb⟩ hg
        · exact Or.inl htl
        · exact Or.inr hacc

/-- The exact-match section is monotone in the budget (membership, no
cap): its only search runs at the same budget. -/
theorem exactSection_mono (st : state) (start : List Char) (c : Char) (rest : List Char)
    (d : Int) (aa ad : Bool) (ig : Char) (w : List Char)
    (Hmono : ∀ (child : state) (pre : List Char),
        w ∈ (searchSubString child pre rest d 0 aa ad nul).1 →
        w ∈ (searchSubString child pre rest (d + 1) 0 aa ad nul).1)
    (hw : w ∈ (exactSection st start c rest d 0 aa ad ig).1.1) :
    w ∈ (exactSection st start c rest (d + 1) 0 aa ad ig).1.1 := by
  rw [exactSection] at hw ⊢
  by_cases hc : c ≠ ig
  · rw [if_pos hc] at hw ⊢
    cases hget : getletter st c with
    | some child =>
      rw [hget] at hw
      try dsimp only at hw ⊢
      rw [mem_mergeWords] at hw ⊢
      rcases hw with hf | hemp
      · exact Or.inl (Hmono child _ hf)
      · simp at hemp
    | none =>
      rw [hget] at hw
      simp at hw
  · rw [if_neg hc] at hw
    simp at hw

/-- The substitution/deletion section is monotone in the budget
(membership, no cap), given monotone accumulators. -/
theorem fuzzySection_mono (st : state) (start : List Char) (c : Char) (rest : List Char)
    (d : Int) (aa ad : Bool) (ig : Char) (acc1 acc2 : List (List Char) × Int) (w : List Char)
    (Hmono : d > 0 → ∀ (lst : state) (pre : List Char),
        w ∈ (searchSubString lst pre rest (d - 1) 0 aa ad c).1 →
        w ∈ (searchSubString lst pre rest d 0 aa ad c).1)
    (hacc : w ∈ acc1.1 → w ∈ acc2.1)
    (hw : w ∈ (fuzzySection st start c rest d 0 aa ad ig acc1).1.1) :
    w ∈ (fuzzySection st start c rest (d + 1) 0 aa ad ig acc2).1.1 := by
  rw [fuzzySection] at hw ⊢
  have he : (d + 1 - 1 : Int) = d := by ring
  by_cases hd : d > 0
  · rw [dif_pos hd] at hw
    rw [dif_pos (by omega), he]
    try dsimp only at hw ⊢
    rw [if_neg (by simp [subLoop_flag_zero])] at hw
    rw [if_neg (by simp [subLoop_flag_zero])]
    by_cases had : ad = true
    · rw [if_pos had] at hw ⊢
      try dsimp only at hw ⊢
      rw [mem_mergeWords] at hw ⊢
      rcases hw with hf | hr
      · exact Or.inl (Hmono hd st start hf)
      · right
        rw [subLoop_mem_zero] at hr ⊢
        rcases hr with ⟨p, hp, h1, h2, h3⟩ | hacc1
        · exact Or.inl ⟨p, hp, h1, h2, Hmono hd p.2 _ h3⟩
        · exact Or.inr (hacc hacc1)
    · rw [if_neg had] at hw ⊢
      rw [subLoop_mem_zero] at hw ⊢
      rcases hw with ⟨p, hp, h1, h2, h3⟩ | hacc1
      · exact Or.inl ⟨p, hp, h1, h2, Hmono hd p.2 _ h3⟩
      · exact Or.inr (hacc hacc1)
  · rw [dif_neg hd] at hw
    try dsimp only at hw
    have hacc2 := hacc hw
    by_cases hd1 : (d + 1 : Int) > 0
    · rw [dif_pos hd1, he]
      rw [if_neg (by simp [subLoop_flag_zero])]
      by_cases had : ad = true
      · rw [if_pos had]
        try dsimp only
        rw [mem_mergeWords]
        right
        rw [subLoop_mem_zero]
        exact Or.inr hacc2
      · rw [if_neg had]
        rw [subLoop_mem_zero]
        exact Or.inr hacc2
    · rw [dif_neg hd1]
      exact hacc2

/-- The insertion section is monotone in the budget (membership, no cap),
given monotone accumulators. -/
theorem insertSection_mono (st : state) (endBuf start : List Char)
    (d : Int) (aa ad : Bool) (ch ig : Char) (acc1 acc2 : List (List Char) × Int) (w : List Char)
    (Hmono : d > 0 → ∀ (lst : state) (pre : List Char),
        w ∈ (searchSubString lst pre endBuf (d - 1) 0 aa ad nul).1 →
        w ∈ (searchSubString lst pre endBuf d 0 aa ad nul).1)
    (hacc : w ∈ acc1.1 → w ∈ acc2.1)
    (hw : w ∈ (insertSection st endBuf start d 0 aa ad ch ig acc1).1) :
    w ∈ (insertSection st endBuf start (d + 1) 0 aa ad ch ig acc2).1 := by
  rw [insertSection] at hw ⊢
  have he : (d + 1 - 1 : Int) = d := by ring
  by_cases hd : d > 0
  · rw [dif_pos hd] at hw
    rw [dif_pos (by omega), he]
    by_cases haa : aa = true
    · rw [if_pos haa] at hw ⊢
      rw [addLoop_mem_zero] at hw ⊢
      rcases hw with ⟨p, hp, h1, h2, h3⟩ | hacc1
      · exact Or.inl ⟨p, hp, h1, h2, Hmono hd p.2 _ h3⟩
      · exact Or.inr (hacc hacc1)
    · rw [if_neg haa] at hw ⊢
      exact hacc hw
  · rw [dif_neg hd] at hw
    by_cases hd1 : (d + 1 : Int) > 0
    · rw [dif_pos hd1, he]
      by_cases haa : aa = true
      · rw [if_pos haa]
        rw [addLoop_mem_zero]
        exact Or.inr (hacc hw)
      · rw [if_neg haa]
        exact hacc hw
    · rw [dif_neg hd1]
      exact hacc hw

/-- Membership monotonicity of the uncapped traversal in the edit budget
(induction on the query/budget measure): every word found with budget `d`
is found with budget `d + 1`. -/
theorem searchSubString_mono_le : ∀ (N : Nat) (st : state) (start endBuf : List Char)
    (d : Int) (aa ad : Bool) (ig : Char) (w : List Char),
    endBuf.length + d.toNat ≤ N →
    w ∈ (searchSubString st start endBuf d 0 aa ad ig).1 →
    w ∈ (searchSubString st start endBuf (d + 1) 0 aa ad ig).1 := by
  intro N
  induction N with
  | zero =>
    intro st start endBuf d aa ad ig w hle hw
    cases endBuf with
    | nil =>
      rw [searchSubString.eq_2] at hw ⊢
      try dsimp only at hw ⊢
      exact insertSection_mono st [] start d aa ad nul ig _ _ w
        (fun hd => absurd hd (by omega)) id hw
    | cons c rest => simp at hle
  | succ N ih =>
    intro st start endBuf d aa ad ig w hle hw
    cases endBuf with
    | nil =>
      rw [searchSubString.eq_2] at hw ⊢
      try dsimp only at hw ⊢
      refine insertSection_mono st [] start d aa ad nul ig _ _ w ?_ id hw
      intro hd lst pre h
      have := ih lst pre [] (d - 1) aa ad nul w (by simp at hle ⊢; omega) h
      rwa [show (d - 1 + 1 : Int) = d by ring] at this
    | cons c rest =>
      simp only [List.length_cons] at hle
      rw [searchSubString.eq_1] at hw ⊢
      simp only [exactSection_flag_zero, fuzzySection_flag_zero, Bool.false_eq_true,
        if_false] at hw ⊢
      refine insertSection_mono st (c :: rest) start d aa ad c ig _ _ w ?_ ?_ hw
      · intro hd lst pre h
        have := ih lst pre (c :: rest) (d - 1) aa ad nul w
          (by simp only [List.length_cons]; omega) h
        rwa [show (d - 1 + 1 : Int) = d by ring] at this
      · intro hwf
        refine fuzzySection_mono st start c rest d aa ad ig _ _ w ?_ ?_ hwf
        · intro hd lst pre h
          have := ih lst pre rest (d - 1) aa ad c w (by omega) h
          rwa [show (d - 1 + 1 : Int) = d by ring] at this
        · intro hwe
          exact exactSection_mono st start c rest d aa ad ig w
            (fun child pre h => ih child pre rest d aa ad nul w (by omega) h) hwe

/-- C7: with `maxResults` positive and large enough that neither call
truncates (expressed as: the capped traversal coincides with the uncapped
one and the uncapped result size stays within `maxResults`, at budgets `d`
and `d + 1`), every word returned by `Search` with edit-distance budget
`d` is also returned by `Search` with budget `d + 1`. -/
theorem c7_distance_budget_monotone (dawg : state) (q : List Char) (d mr : Int)
    (aa ad : Bool) (out : List (List Char)) (w : List Char)
    (hmr : 0 < mr)
    (hcap : searchSubString dawg [] q d mr aa ad nul = searchSubString dawg [] q d 0 aa ad nul)
    (hcap1 : searchSubString dawg [] q (d + 1) mr aa ad nul =
      searchSubString dawg [] q (d + 1) 0 aa ad nul)
    (hsz : (searchSubString dawg [] q d 0 aa ad nul).2 ≤ mr)
    (hsz1 : (searchSubString dawg [] q (d + 1) 0 aa ad nul).2 ≤ mr)
    (hS : Search dawg q d mr aa ad = some out)
    (hw : w ∈ out) :
    ∃ out2, Search dawg q (d + 1) mr aa ad = some out2 ∧ w ∈ out2 := by
  have hsize := searchSubString_size dawg [] q d 0 aa ad nul
  have hsize1 := searchSubString_size dawg [] q (d + 1) 0 aa ad nul
  have key : Search dawg q d mr aa ad =
      some (searchSubString dawg [] q d 0 aa ad nul).1.reverse := by
    rw [Search]
    try dsimp only
    rw [hcap]
    rw [truncLoop_noDrop _ _ _ (not_lt.mpr hsz)]
    try dsimp only
    rw [hsize, convertLoop_full]
  have key1 : Search dawg q (d + 1) mr aa ad =
      some (searchSubString dawg [] q (d + 1) 0 aa ad nul).1.reverse := by
    rw [Search]
    try dsimp only
    rw [hcap1]
    rw [truncLoop_noDrop _ _ _ (not_lt.mpr hsz1)]
    try dsimp only
    rw [hsize1, convertLoop_full]
  rw [key] at hS
  have hout : out = (searchSubString dawg [] q d 0 aa ad nul).1.reverse :=
    (Option.some_inj.mp hS).symm
  rw [hout, List.mem_reverse] at hw
  refine ⟨_, key1, ?_⟩
  rw [List.mem_reverse]
  exact searchSubString_mono_le (q.length + d.toNat) dawg [] q d aa ad nul w le_rfl hw

set_option maxHeartbeats 1000000 in
/-- C7 witness: in the graph of `{"ab"}`, the word found for query `"ab"`
at distance 0 is also found at distance 1 (`maxResults = 10` truncates
neither call). -/
theorem c7_distance_budget_monotone_witness :
    ∃ out2, Search (addWordAux (state.mk false []) ['a', 'b']).1 ['a', 'b'] (0 + 1) 10
        false false = some out2 ∧ ['a', 'b'] ∈ out2 :=
  c7_distance_budget_monotone (addWordAux (state.mk false []) ['a', 'b']).1 ['a', 'b'] 0 10
    false false [['a', 'b']] ['a', 'b'] (by norm_num)
    (by simp [searchSubString, exactSection, fuzzySection, insertSection, subLoop, addLoop,
      getletter, mergeWords, addWordAux, insertChar, updateIn, nul, state.letters, state.final])
    (by simp [searchSubString, exactSection, fuzzySection, insertSection, subLoop, addLoop,
      getletter, mergeWords, addWordAux, insertChar, updateIn, nul, state.letters, state.final])
    (by simp [searchSubString, exactSection, fuzzySection, insertSection, subLoop, addLoop,
      getletter, mergeWords, addWordAux, insertChar, updateIn, nul, state.letters, state.final])
    (by simp [searchSubString, exactSection, fuzzySection, insertSection, subLoop, addLoop,
      getletter, mergeWords, addWordAux, insertChar, updateIn, nul, state.letters, state.final])
    (by simp [Search, searchSubString, exactSection, fuzzySection, insertSection, subLoop,
      addLoop, getletter, mergeWords, truncLoop, convertLoop, addWordAux, insertChar, updateIn,
      nul, state.letters, state.final])
    (by simp)

/-- A state write does not change the letters. -/
theorem Arena.getL_setS (st : Store) (i : Nat) (v : state) (j : Nat) :
    getL (setS st i v) j = getL st j := rfl

/-- Allocating a state does not change the letters. -/
theorem Arena.getL_appendS (st : Store) (x : state) (j : Nat) :
    getL { st with states := st.states ++ [x] } j = getL st j := rfl

